import Mathlib

/-!
Chained comparison (`cmp.hpp`): embedding and verification.

The primary mechanism of `cmp.hpp` is the class template
`Node<Index, Parent, OpType, T>`: a chain `chain_root << v0 < v1 <= v2 ...` is a
tower of nodes, each one deriving from its parent, holding one operand `elem`
and remembering in its type the operator that precedes that operand.

The embedding keeps one Lean value per chain object.  The operand types of the
C++ chain may differ from slot to slot; here they live in one carrier type `α`
and the two function objects `std::less<>` / `std::less_equal<>` are arbitrary
boolean functions on `α` (no order law is assumed unless a theorem says so).
A template instantiation that does not exist in C++ (an index with no `get` /
`op` overload) is the value `none`.
-/

namespace cmp

/-- The operator class recorded by a node: `std::less<>` or `std::less_equal<>`. -/
inductive OpType where
  | less
  | less_equal
  deriving DecidableEq, Repr

/-- The two comparison function objects applied by `Node::compare`:
`std::less<>{}(x, y)` and `std::less_equal<>{}(x, y)`, total and pure. -/
structure Comparators (α : Type) where
  less : α → α → Bool
  less_equal : α → α → Bool

/-- A chain object.  `root elem` is `Node<0, Root_node, void, T>` (what
`chain_root << elem` builds); `node parent opType elem` is
`Node<Index + 1, Parent, OpType, T>`, built by `operator<` / `operator<=`. -/
inductive Node (α : Type) where
  | root (elem : α)
  | node (parent : Node α) (opType : OpType) (elem : α)
  deriving DecidableEq, Repr

variable {α : Type}

/-- The template parameter `Index` of a node type. -/
def Node.index : Node α → Nat
  | .root _ => 0
  | .node parent _ _ => parent.index + 1

/-- The member `Node::size()`: `return Index + 1;`. -/
def Node.size (c : Node α) : Nat := c.index + 1

/-- The member `Node::get<Inx>()`: overload resolution over `get(Element<Index>)` of this
node and, through `using parent::get`, of every ancestor.  `Root_node::get()` takes
no `Element`, so an index with no node has no overload (`none`). -/
def Node.get : Node α → Nat → Option α
  | .root elem, inx => if inx = 0 then some elem else none
  | .node parent opType elem, inx =>
      if inx = (Node.node parent opType elem).index then some elem else parent.get inx

/-- The member `Node::op<Inx>()`: the operator class preceding operand `Inx`.  Node 0 has
`OpType = void` and `Root_node::op()` takes no `Element`: both are `none`. -/
def Node.op : Node α → Nat → Option OpType
  | .root _, _ => none
  | .node parent opType elem, inx =>
      if inx = (Node.node parent opType elem).index then some opType else parent.op inx

/-- The member `Node::operator<`: `Node<Index + 1, this_type, std::less<>, RType>(*this, rhs)`. -/
def Node.operator_lt (c : Node α) (rhs : α) : Node α := .node c .less rhs

/-- The member `Node::operator<=`: `Node<Index + 1, this_type, std::less_equal<>, RType>(*this, rhs)`. -/
def Node.operator_le (c : Node α) (rhs : α) : Node α := .node c .less_equal rhs

/-- The member `Chain_root::operator<<`: `Node<0, Root_node, void, RType>(rhs)`. -/
def Chain_root.operator_shl (rhs : α) : Node α := .root rhs

/-- The member `Node::check_all_less_equal<LIndex, RIndex>()`. -/
def Node.check_all_less_equal (c : Node α) (LIndex RIndex : Nat) : Option Bool :=
  if LIndex < RIndex then
    match c.op (LIndex + 1) with
    | none => none
    | some opType =>
        if opType = OpType.less_equal then c.check_all_less_equal (LIndex + 1) RIndex
        else some false
  else some true
termination_by RIndex - LIndex

/-- The member `Node::compare<LIndex, RIndex>()`. -/
def Node.compare (f : Comparators α) (c : Node α) (LIndex RIndex : Nat) : Option Bool :=
  match c.check_all_less_equal LIndex RIndex, c.get LIndex, c.get RIndex with
  | some true, some l, some r => some (f.less_equal l r)
  | some false, some l, some r => some (f.less l r)
  | _, _, _ => none

/-- The member `Node::eval_for_dist<LIndex, Dist>()`; `&&` evaluates its right operand only
when the left one is `true`. -/
def Node.eval_for_dist (f : Comparators α) (c : Node α) (LIndex Dist : Nat) : Option Bool :=
  if LIndex + Dist < c.size then
    match c.compare f LIndex (LIndex + Dist) with
    | none => none
    | some false => some false
    | some true => c.eval_for_dist f (LIndex + 1) Dist
  else some true
termination_by c.size - (LIndex + Dist)

/-- The member `Node::evaluate<Dist>()`. -/
def Node.evaluate (f : Comparators α) (c : Node α) (Dist : Nat) : Option Bool :=
  if Dist < c.size then
    match c.eval_for_dist f 0 Dist with
    | none => none
    | some false => some false
    | some true => c.evaluate f (Dist + 1)
  else some true
termination_by c.size - Dist

/-- The member `Node::operator bool()`: `return evaluate();`, a call without a template
argument.  Only the first `evaluate` overload declares the default `Dist = 1`, and `enable_if`
keeps it when `1 < size()`.  The second overload declares no default and `Dist` cannot be
deduced from the empty argument list, so on a chain of one operand the call has no viable
overload: the conversion is ill-formed (`none`).  The explicit call `evaluate<1>()` is
`Node.evaluate` at `Dist = 1`, on every chain. -/
def Node.operator_bool (f : Comparators α) (c : Node α) : Option Bool :=
  if 1 < c.size then c.evaluate f 1 else none

/-- The built-in comparisons of `int`. -/
def intComparators : Comparators Int where
  less := fun x y => decide (x < y)
  less_equal := fun x y => decide (x ≤ y)

/-- Spec §4.2 `operator_at(chain, i)`: the operator recorded between slot `i` and
slot `i + 1`, which the source keeps as the operator preceding operand `i + 1`. -/
def Spec.operator_at (c : Node α) (i : Nat) : Option OpType := c.op (i + 1)

/-- Spec §4.3 step 2, `effective(i, j)`: `LESS_OR_EQUAL` if every one of
`operator_at(chain, i), …, operator_at(chain, j-1)` is `LESS_OR_EQUAL`, otherwise `LESS`. -/
def Spec.effective (c : Node α) (i j : Nat) : OpType :=
  if ∀ k < j, i ≤ k → Spec.operator_at c k = some OpType.less_equal then OpType.less_equal
  else OpType.less

/-- Spec §4.3 step 3, `compare(x, y, OP)`: `x < y` for `LESS`, `x <= y` for `LESS_OR_EQUAL`. -/
def Spec.compare (f : Comparators α) (x y : α) : OpType → Bool
  | .less => f.less x y
  | .less_equal => f.less_equal x y

/-- Spec §4.3 step 3 for one pair: `compare(value_at(i), value_at(j), effective(i, j))`. -/
def Spec.pair_holds (f : Comparators α) (c : Node α) (i j : Nat) : Bool :=
  match c.get i, c.get j with
  | some x, some y => Spec.compare f x y (Spec.effective c i j)
  | _, _ => false

/-- Spec §4.3 steps 1–3 without short-circuit: the AND over all pairs `i < j` of the chain. -/
def Spec.evaluate (f : Comparators α) (c : Node α) : Bool :=
  (List.range c.size).all fun j => (List.range j).all fun i => Spec.pair_holds f c i j

/-- Spec §4.2 `append(chain, operator, value)`: the source's `operator<` for `LESS` and
`operator<=` for `LESS_OR_EQUAL`. -/
def Spec.append (c : Node α) (OP : OpType) (v : α) : Node α :=
  match OP with
  | .less => c.operator_lt v
  | .less_equal => c.operator_le v

/-- A chain grown from `c` by the appends of `steps`, first to last. -/
def Spec.appends (c : Node α) (steps : List (OpType × α)) : Node α :=
  steps.foldl (fun acc step => Spec.append acc step.1 step.2) c

/-- The member `Node::operator<` as a step on the object it is called on: the pair of the node returned
and of `*this` after the call.  The new node's parent subobject is copy-constructed
(`parent(pclass)`, where `pclass` is an lvalue inside the constructor), so `*this` is not
written. -/
def Node.operator_lt_run (c : Node α) (rhs : α) : Node α × Node α := (.node c .less rhs, c)

/-- The member `Node::operator<=` as a step on the object it is called on (see `operator_lt_run`). -/
def Node.operator_le_run (c : Node α) (rhs : α) : Node α × Node α := (.node c .less_equal rhs, c)

/-- Spec §4.2 `append` as a step on the chain it is applied to. -/
def Spec.append_run (c : Node α) (OP : OpType) (v : α) : Node α × Node α :=
  match OP with
  | .less => c.operator_lt_run v
  | .less_equal => c.operator_le_run v

/-! ### Evaluation as steps on the program state

The data members of a chain object are references (`const T& elem`), which cannot be reseated,
and its operators are template arguments: the object holds nothing that a member function could
rewrite.  What evaluation can touch is the state in which the operands live, and it reaches it
at one place only: `compare` hands the references `get<LIndex>()` and `get<RIndex>()` to
`std::less_equal<>{}` or `std::less<>{}`, that is to the `operator<=` / `operator<` of the
operand type.  `check_all_less_equal` reads types only (`decltype`, `std::is_same`) and `get`
returns a reference without reading through it.

In this section a chain holds references of a type `ρ`, the program state has a type `σ`, and a
comparison is run in a state and returns its result with the state it leaves. -/

/-- The two comparison function objects as steps on the program state: the result of
`std::less<>{}(x, y)` resp. `std::less_equal<>{}(x, y)` run in a state, and the state after the
call. -/
structure Comparators_run (σ ρ : Type) where
  less : ρ → ρ → σ → Bool × σ
  less_equal : ρ → ρ → σ → Bool × σ

/-- The results of the two comparisons when they are run in the state `s`. -/
def Comparators_run.in_state {σ ρ : Type} (F : Comparators_run σ ρ) (s : σ) : Comparators ρ where
  less := fun x y => (F.less x y s).1
  less_equal := fun x y => (F.less_equal x y s).1

/-- The comparisons are free of side effects: each leaves the state it was run in. -/
def Comparators_run.side_effect_free {σ ρ : Type} (F : Comparators_run σ ρ) : Prop :=
  ∀ x y s, (F.less x y s).2 = s ∧ (F.less_equal x y s).2 = s

/-- The member `Node::compare<LIndex, RIndex>()` as a step on the program state. -/
def Node.compare_run {σ ρ : Type} (F : Comparators_run σ ρ) (c : Node ρ) (LIndex RIndex : Nat)
    (s : σ) : Option (Bool × σ) :=
  match c.check_all_less_equal LIndex RIndex, c.get LIndex, c.get RIndex with
  | some true, some l, some r => some (F.less_equal l r s)
  | some false, some l, some r => some (F.less l r s)
  | _, _, _ => none

/-- The member `Node::eval_for_dist<LIndex, Dist>()` as a step on the program state. -/
def Node.eval_for_dist_run {σ ρ : Type} (F : Comparators_run σ ρ) (c : Node ρ)
    (LIndex Dist : Nat) (s : σ) : Option (Bool × σ) :=
  if LIndex + Dist < c.size then
    match c.compare_run F LIndex (LIndex + Dist) s with
    | none => none
    | some (false, s1) => some (false, s1)
    | some (true, s1) => c.eval_for_dist_run F (LIndex + 1) Dist s1
  else some (true, s)
termination_by c.size - (LIndex + Dist)

/-- The member `Node::evaluate<Dist>()` as a step on the program state. -/
def Node.evaluate_run {σ ρ : Type} (F : Comparators_run σ ρ) (c : Node ρ) (Dist : Nat) (s : σ) :
    Option (Bool × σ) :=
  if Dist < c.size then
    match c.eval_for_dist_run F 0 Dist s with
    | none => none
    | some (false, s1) => some (false, s1)
    | some (true, s1) => c.evaluate_run F (Dist + 1) s1
  else some (true, s)
termination_by c.size - Dist

/-- The member `Node::operator bool()` as a step on the program state; ill-formed on a chain of
one operand, as `Node.operator_bool`. -/
def Node.operator_bool_run {σ ρ : Type} (F : Comparators_run σ ρ) (c : Node ρ) (s : σ) :
    Option (Bool × σ) :=
  if 1 < c.size then c.evaluate_run F 1 s else none

/-- Two boolean conversions of one chain in a row, the second run in the state the first one
left: both results and the final state. -/
def Node.operator_bool_twice {σ ρ : Type} (F : Comparators_run σ ρ) (c : Node ρ) (s : σ) :
    Option (Bool × Bool × σ) :=
  match c.operator_bool_run F s with
  | none => none
  | some (b1, s1) =>
      match c.operator_bool_run F s1 with
      | none => none
      | some (b2, s2) => some (b1, b2, s2)

/-- Operands of type `int` kept in a store and referred to by their position in it: the
built-in comparisons read both operands and write nothing. -/
def storeComparators : Comparators_run (List Int) Nat where
  less := fun x y s => (decide (s.getD x 0 < s.getD y 0), s)
  less_equal := fun x y s => (decide (s.getD x 0 ≤ s.getD y 0), s)

/-- An operand type whose comparison operators write: each comparison adds one to its left
operand after comparing. -/
def writingComparators : Comparators_run (List Int) Nat where
  less := fun x y s => (decide (s.getD x 0 < s.getD y 0), s.set x (s.getD x 0 + 1))
  less_equal := fun x y s => (decide (s.getD x 0 ≤ s.getD y 0), s.set x (s.getD x 0 + 1))

/-! ### A chain under a `GREATER`-family operator

`Node` declares `operator<` and `operator<=` only, and its conversion `operator bool()` is not
`explicit`.  For an `int` right operand the expressions `chain > rhs` and `chain >= rhs` are
therefore well-formed through the built-in comparison of `int`, applied to the converted chain:
`int(bool(chain)) > rhs`.  `none` stands for a rejected expression; on a chain of one operand the
conversion itself is ill-formed, and so is the comparison. -/

/-- The expression `chain > rhs`, `rhs` an `int`. -/
def Node.builtin_gt (f : Comparators Int) (c : Node Int) (rhs : Int) : Option Bool :=
  (c.operator_bool f).map fun b => decide ((if b = true then (1 : Int) else 0) > rhs)

/-- The expression `chain >= rhs`, `rhs` an `int`. -/
def Node.builtin_ge (f : Comparators Int) (c : Node Int) (rhs : Int) : Option Bool :=
  (c.operator_bool f).map fun b => decide ((if b = true then (1 : Int) else 0) ≥ rhs)

/-! ### Comparison functions of particular operand types -/

/-- The comparisons of `std::string`, lexicographic on the characters. -/
def stringComparators : Comparators String where
  less := fun x y => decide (x < y)
  less_equal := fun x y => decide (x ≤ y)

/-- The comparisons `<` and `<=` of an operand type that is linearly ordered. -/
def orderComparators (β : Type) [LinearOrder β] : Comparators β where
  less := fun x y => decide (x < y)
  less_equal := fun x y => decide (x ≤ y)

/-- A comparison that is not transitive: `x < y` holds exactly when `y` is the successor of
`x`, and `x <= y` when moreover `x` may equal `y`. -/
def successorComparators : Comparators Nat where
  less := fun x y => decide (y = x + 1)
  less_equal := fun x y => decide (y = x ∨ y = x + 1)

/-- The chain `x <= x <= ... <= x` of `n` operands (`n ≥ 1`), built with `operator<=` only. -/
def Spec.all_equal_chain (x : α) (n : Nat) : Node α :=
  Spec.appends (Chain_root.operator_shl x) (List.replicate (n - 1) (OpType.less_equal, x))

/-- One adjacent comparison of the hand-written form `v0 o1 v1 && v1 o2 v2 && ...`:
`compare(v_k, v_{k+1}, o_{k+1})`. -/
def Spec.adjacent_holds (f : Comparators α) (c : Node α) (k : Nat) : Bool :=
  match c.get k, c.get (k + 1), c.op (k + 1) with
  | some x, some y, some o => Spec.compare f x y o
  | _, _, _ => false

/-- The plain conjunction of the adjacent comparisons of a chain, as in the hand-written
`0.4 < a && a <= b && b <= c && c < 0.6`. -/
def Spec.adjacent_only (f : Comparators α) (c : Node α) : Bool :=
  (List.range (c.size - 1)).all fun k => Spec.adjacent_holds f c k

/-- The chain `c` with the operator preceding operand `k` replaced by `std::less_equal<>`,
operands unchanged (the chain written with `<=` instead of `<` at that place). -/
def Node.weaken : Node α → Nat → Node α
  | .root elem, _ => .root elem
  | .node parent opType elem, k =>
      if k = (Node.node parent opType elem).index then .node parent OpType.less_equal elem
      else .node (parent.weaken k) opType elem

/-! ### Evaluation with the list of compared pairs

The same members, returning with their result the pairs `(LIndex, RIndex)` on which
`compare<LIndex, RIndex>()` was called, in call order.  A `compare` call applies exactly one of
`std::less_equal<>` / `std::less<>` to `get<LIndex>()` and `get<RIndex>()`. -/

/-- The member `Node::eval_for_dist<LIndex, Dist>()` with the pairs it compares. -/
def Node.eval_for_dist_traced (f : Comparators α) (c : Node α) (LIndex Dist : Nat) :
    Option Bool × List (Nat × Nat) :=
  if LIndex + Dist < c.size then
    match c.compare f LIndex (LIndex + Dist) with
    | none => (none, [(LIndex, LIndex + Dist)])
    | some false => (some false, [(LIndex, LIndex + Dist)])
    | some true =>
        ((c.eval_for_dist_traced f (LIndex + 1) Dist).1,
          (LIndex, LIndex + Dist) :: (c.eval_for_dist_traced f (LIndex + 1) Dist).2)
  else (some true, [])
termination_by c.size - (LIndex + Dist)

/-- The member `Node::evaluate<Dist>()` with the pairs it compares. -/
def Node.evaluate_traced (f : Comparators α) (c : Node α) (Dist : Nat) :
    Option Bool × List (Nat × Nat) :=
  if Dist < c.size then
    match (c.eval_for_dist_traced f 0 Dist).1 with
    | none => (none, (c.eval_for_dist_traced f 0 Dist).2)
    | some false => (some false, (c.eval_for_dist_traced f 0 Dist).2)
    | some true =>
        ((c.evaluate_traced f (Dist + 1)).1,
          (c.eval_for_dist_traced f 0 Dist).2 ++ (c.evaluate_traced f (Dist + 1)).2)
  else (some true, [])
termination_by c.size - Dist

/-- The member `Node::operator bool()` with the pairs it compares; ill-formed on a chain of one
operand, as `Node.operator_bool`. -/
def Node.operator_bool_traced (f : Comparators α) (c : Node α) :
    Option Bool × List (Nat × Nat) :=
  if 1 < c.size then c.evaluate_traced f 1 else (none, [])

/-- The order of the comparisons: by increasing distance `j - i`, and within one distance by
increasing `i`. -/
def Spec.visited_before (p q : Nat × Nat) : Prop :=
  p.2 - p.1 < q.2 - q.1 ∨ (p.2 - p.1 = q.2 - q.1 ∧ p.1 < q.1)

/-! ### Evaluation with the indexed accesses it names

The same members, returning with their result the indexed accesses `get<k>()` and `op<k>()` of
the members instantiated on the way.  These are fixed when the templates are instantiated,
whatever the operators and the operands are: `op<LIndex + 1>()` stands in a `decltype`, the call
`check_all_less_equal<LIndex + 1, RIndex>()` stands under a run-time `if`, both branches of
`compare` name `get<LIndex>()` and `get<RIndex>()`, and the right operand of `&&` is instantiated
also when it is not evaluated.  So the list does not follow the short-circuit of the result. -/

/-- One indexed access named by the evaluator. -/
inductive Access where
  | get (inx : Nat)
  | op (inx : Nat)
  deriving DecidableEq, Repr

/-- An access is in range for a chain of size `n`: `0 ≤ k ≤ n - 1` for `get<k>()`,
`1 ≤ k ≤ n - 1` for `op<k>()`. -/
def Access.in_range (n : Nat) : Access → Prop
  | .get k => k + 1 ≤ n
  | .op k => 1 ≤ k ∧ k + 1 ≤ n

/-- The member `Node::check_all_less_equal<LIndex, RIndex>()` with its accesses: `op<LIndex + 1>()`
and those of `check_all_less_equal<LIndex + 1, RIndex>()`, whichever operator is found. -/
def Node.check_all_less_equal_logged (c : Node α) (LIndex RIndex : Nat) :
    Option Bool × List Access :=
  if LIndex < RIndex then
    (match c.op (LIndex + 1) with
      | none => none
      | some opType =>
          if opType = OpType.less_equal then (c.check_all_less_equal_logged (LIndex + 1) RIndex).1
          else some false,
      Access.op (LIndex + 1) :: (c.check_all_less_equal_logged (LIndex + 1) RIndex).2)
  else (some true, [])
termination_by RIndex - LIndex

/-- The member `Node::compare<LIndex, RIndex>()` with its accesses: those of
`check_all_less_equal<LIndex, RIndex>()`, then `get<LIndex>()` and `get<RIndex>()` of the
`std::less_equal<>` branch and of the `std::less<>` branch. -/
def Node.compare_logged (f : Comparators α) (c : Node α) (LIndex RIndex : Nat) :
    Option Bool × List Access :=
  (match (c.check_all_less_equal_logged LIndex RIndex).1, c.get LIndex, c.get RIndex with
    | some true, some l, some r => some (f.less_equal l r)
    | some false, some l, some r => some (f.less l r)
    | _, _, _ => none,
    (c.check_all_less_equal_logged LIndex RIndex).2 ++
      [Access.get LIndex, Access.get RIndex, Access.get LIndex, Access.get RIndex])

/-- The member `Node::eval_for_dist<LIndex, Dist>()` with its accesses: those of
`compare<LIndex, LIndex + Dist>()` and of `eval_for_dist<LIndex + 1, Dist>()`, whatever the
comparison returns. -/
def Node.eval_for_dist_logged (f : Comparators α) (c : Node α) (LIndex Dist : Nat) :
    Option Bool × List Access :=
  if LIndex + Dist < c.size then
    (match (c.compare_logged f LIndex (LIndex + Dist)).1 with
      | none => none
      | some false => some false
      | some true => (c.eval_for_dist_logged f (LIndex + 1) Dist).1,
      (c.compare_logged f LIndex (LIndex + Dist)).2 ++
        (c.eval_for_dist_logged f (LIndex + 1) Dist).2)
  else (some true, [])
termination_by c.size - (LIndex + Dist)

/-- The member `Node::evaluate<Dist>()` with its accesses: those of `eval_for_dist<0, Dist>()` and
of `evaluate<Dist + 1>()`, whatever the first returns. -/
def Node.evaluate_logged (f : Comparators α) (c : Node α) (Dist : Nat) :
    Option Bool × List Access :=
  if Dist < c.size then
    (match (c.eval_for_dist_logged f 0 Dist).1 with
      | none => none
      | some false => some false
      | some true => (c.evaluate_logged f (Dist + 1)).1,
      (c.eval_for_dist_logged f 0 Dist).2 ++ (c.evaluate_logged f (Dist + 1)).2)
  else (some true, [])
termination_by c.size - Dist

/-- The member `Node::operator bool()` with its accesses; ill-formed on a chain of one operand, as
`Node.operator_bool`. -/
def Node.operator_bool_logged (f : Comparators α) (c : Node α) : Option Bool × List Access :=
  if 1 < c.size then c.evaluate_logged f 1 else (none, [])

/-! ### The earlier prototype: `Reserve`, `Implement`, `Conductor`, `Initiator`

The second mechanism of `cmp.hpp` keeps a chain as a `std::tuple` of `Reserve` objects, one per
operand, each tagged with the operation that introduced it.  The tuple is a list here; an
instantiation that does not exist in C++ (an index outside the tuple, no `compare` overload for
a tag, two partial specializations matching at once) is the value `none`. -/

/-- The tag types of `struct Operation`. -/
inductive Operation where
  | Base
  | ChainBegin
  | ChainEnd
  | LowerThan
  | LowerThanEqual
  | GreaterThan
  | GreaterThanEqual
  deriving DecidableEq, Repr

/-- The class `Reserve<RType, OperType>`: the reserved operand `rhs_` and its tag. -/
structure Reserve (α : Type) where
  rhs_ : α
  oper_type : Operation
  deriving Repr

/-- The free functions `compare(lhs, Reserve<RType, Operation::LowerThan>&)`, which is
`lhs < rhs.rhs_`, and `compare(lhs, Reserve<RType, Operation::LowerThanEqual>&)`, which is
`lhs <= rhs.rhs_`; no overload takes another tag. -/
def compare (f : Comparators α) (lhs : α) (rhs : Reserve α) : Option Bool :=
  match rhs.oper_type with
  | .LowerThan => some (f.less lhs rhs.rhs_)
  | .LowerThanEqual => some (f.less_equal lhs rhs.rhs_)
  | _ => none

/-- The static member `Implement<OuterInx, InnerInx, EndInx, Types...>::comparison(tuple)`, with
its two partial specializations: `<EndInx, InnerInx, EndInx>` returns `true`,
`<OuterInx, EndInx, EndInx>` compares and moves to `<OuterInx + 1, OuterInx + 2, EndInx>`, and the
primary template compares and moves to `<OuterInx, InnerInx + 1, EndInx>`.  The arguments
`<EndInx, EndInx, EndInx>` match both specializations and neither is more specialized. -/
def Implement.comparison (f : Comparators α) (tuple : List (Reserve α))
    (OuterInx InnerInx EndInx : Nat) : Option Bool :=
  if OuterInx = EndInx then
    if InnerInx = EndInx then none else some true
  else if InnerInx = EndInx then
    match hfirst : tuple[OuterInx]?, tuple[EndInx]? with
    | some first, some second =>
        match compare f first.rhs_ second with
        | none => none
        | some false => some false
        | some true => Implement.comparison f tuple (OuterInx + 1) (OuterInx + 2) EndInx
    | _, _ => none
  else
    match tuple[OuterInx]?, hsecond : tuple[InnerInx]? with
    | some first, some second =>
        match compare f first.rhs_ second with
        | none => none
        | some false => some false
        | some true => Implement.comparison f tuple OuterInx (InnerInx + 1) EndInx
    | _, _ => none
termination_by (tuple.length - OuterInx, tuple.length - InnerInx)
decreasing_by
  · have h := (List.getElem?_eq_some.mp hfirst).1
    exact Prod.Lex.left _ _ (by omega)
  · have h := (List.getElem?_eq_some.mp hsecond).1
    exact Prod.Lex.right _ (by omega)

/-- The class `Conductor<ChainOrder, OperCnt, Previous...>`: the tuple `previous_` and the
counter `OperCnt`.  `ChainOrder` is `Order::Ascending` in every `Conductor` the source builds. -/
structure Conductor (α : Type) where
  OperCnt : Nat
  previous_ : List (Reserve α)
  deriving Repr

/-- The member `Initiator::operator<<`:
`Conductor<Order::Ascending, 1, reserve_type>(std::make_tuple(reserve_type(rhs)))` with
`reserve_type = Reserve<RType, Operation::ChainBegin>`. -/
def Initiator.operator_shl (rhs : α) : Conductor α :=
  { OperCnt := 1, previous_ := [{ rhs_ := rhs, oper_type := Operation.ChainBegin }] }

/-- The member `Conductor::operator<`: the conductor over
`std::tuple_cat(previous_, std::make_tuple(reserve_type(rhs)))` with
`reserve_type = Reserve<RType, Operation::LowerThan>`; its `static_assert` on `ChainOrder`
holds. -/
def Conductor.operator_lt (c : Conductor α) (rhs : α) : Conductor α :=
  { OperCnt := c.OperCnt + 1,
    previous_ := c.previous_ ++ [{ rhs_ := rhs, oper_type := Operation.LowerThan }] }

/-- The member `Conductor::operator bool()`:
`Implement<0, 1, sizeof...(Previous) - 1, Previous...>::comparison(previous_)`; `Previous` is
never empty. -/
def Conductor.operator_bool (f : Comparators α) (c : Conductor α) : Option Bool :=
  Implement.comparison f c.previous_ 0 1 (c.previous_.length - 1)

/-- The primary chain `v0 < v1 < ... ` built from `chain_root` with `operator<` only. -/
def Spec.strict_chain (v0 : α) (vs : List α) : Node α :=
  vs.foldl Node.operator_lt (Chain_root.operator_shl v0)

/-- The prototype chain `v0 < v1 < ...` built from `chain` with `operator<` only. -/
def Spec.strict_conductor (v0 : α) (vs : List α) : Conductor α :=
  vs.foldl Conductor.operator_lt (Initiator.operator_shl v0)

/-! ## Indexing -/

theorem Node.size_pos (c : Node α) : 0 < c.size := Nat.succ_pos _

theorem Node.get_of_lt (c : Node α) : ∀ k, k < c.size → ∃ x, c.get k = some x := by
  induction c with
  | root elem =>
      intro k hk
      have : k = 0 := by simp [Node.size, Node.index] at hk; exact hk
      exact ⟨elem, by simp [Node.get, this]⟩
  | node parent opType elem ih =>
      intro k hk
      by_cases h : k = (Node.node parent opType elem).index
      · exact ⟨elem, by simp [Node.get, h]⟩
      · have hk2 : k < parent.size := by
          simp only [Node.size, Node.index] at hk h ⊢
          omega
        obtain ⟨x, hx⟩ := ih k hk2
        exact ⟨x, by simp [Node.get, h, hx]⟩

theorem Node.op_of_lt (c : Node α) : ∀ k, 0 < k → k < c.size → ∃ o, c.op k = some o := by
  induction c with
  | root elem =>
      intro k h0 hk
      simp [Node.size, Node.index] at hk
      omega
  | node parent opType elem ih =>
      intro k h0 hk
      by_cases h : k = (Node.node parent opType elem).index
      · exact ⟨opType, by simp [Node.op, h]⟩
      · have hk2 : k < parent.size := by
          simp only [Node.size, Node.index] at hk h ⊢
          omega
        obtain ⟨o, ho⟩ := ih k h0 hk2
        exact ⟨o, by simp [Node.op, h, ho]⟩

/-! ## The effective operator -/

theorem Node.check_all_less_equal_aux (c : Node α) (R : Nat) (hR : R < c.size) :
    ∀ n L, R - L = n → ∃ b, c.check_all_less_equal L R = some b ∧
      (b = true ↔ ∀ k, L < k → k ≤ R → c.op k = some OpType.less_equal) := by
  intro n
  induction n with
  | zero =>
      intro L hL
      refine ⟨true, ?_, ?_⟩
      · rw [Node.check_all_less_equal]
        simp only [ite_eq_right_iff]
        intro h
        omega
      · simp only [true_iff]
        intro k h1 h2
        omega
  | succ n ih =>
      intro L hL
      have hlt : L < R := by omega
      obtain ⟨o, ho⟩ := c.op_of_lt (L + 1) (Nat.succ_pos _) (by omega)
      rw [Node.check_all_less_equal]
      simp only [hlt, if_true, ho]
      by_cases hle : o = OpType.less_equal
      · obtain ⟨b, hb, hiff⟩ := ih (L + 1) (by omega)
        refine ⟨b, by simp [hle, hb], ?_⟩
        rw [hiff]
        constructor
        · intro h k h1 h2
          by_cases hk : k = L + 1
          · rw [hk, ho, hle]
          · exact h k (by omega) h2
        · intro h k h1 h2
          exact h k (by omega) h2
      · refine ⟨false, by simp [hle], ?_⟩
        simp only [Bool.false_eq_true, false_iff]
        intro h
        have := h (L + 1) (by omega) (by omega)
        rw [ho] at this
        exact hle (Option.some.inj this)

theorem Node.check_all_less_equal_spec (c : Node α) (L R : Nat) (hR : R < c.size) :
    ∃ b, c.check_all_less_equal L R = some b ∧
      (b = true ↔ ∀ k, L < k → k ≤ R → c.op k = some OpType.less_equal) :=
  c.check_all_less_equal_aux R hR (R - L) L rfl

theorem Spec.effective_eq_less_equal_iff (c : Node α) (i j : Nat) :
    Spec.effective c i j = OpType.less_equal ↔
      ∀ k, i < k → k ≤ j → c.op k = some OpType.less_equal := by
  unfold Spec.effective Spec.operator_at
  constructor
  · intro h k h1 h2
    by_cases hall : ∀ k < j, i ≤ k → c.op (k + 1) = some OpType.less_equal
    · have := hall (k - 1) (by omega) (by omega)
      rwa [Nat.sub_add_cancel (by omega)] at this
    · rw [if_neg hall] at h
      cases h
  · intro h
    rw [if_pos]
    intro k h1 h2
    exact h (k + 1) (by omega) (by omega)

theorem Node.compare_spec (f : Comparators α) (c : Node α) (L R : Nat)
    (hL : L < c.size) (hR : R < c.size) :
    c.compare f L R = some (Spec.pair_holds f c L R) := by
  obtain ⟨b, hb, hiff⟩ := c.check_all_less_equal_spec L R hR
  obtain ⟨x, hx⟩ := c.get_of_lt L hL
  obtain ⟨y, hy⟩ := c.get_of_lt R hR
  rw [← Spec.effective_eq_less_equal_iff] at hiff
  unfold Node.compare Spec.pair_holds
  rw [hb, hx, hy]
  cases b with
  | true =>
      rw [hiff.mp rfl]
      rfl
  | false =>
      have hne : Spec.effective c L R ≠ OpType.less_equal := fun h => by
        have := hiff.mpr h
        cases this
      have : Spec.effective c L R = OpType.less := by
        cases h : Spec.effective c L R with
        | less => rfl
        | less_equal => exact absurd h hne
      rw [this]
      rfl

/-! ## The evaluator -/

theorem Node.eval_for_dist_aux (f : Comparators α) (c : Node α) (D : Nat) :
    ∀ n L, c.size - (L + D) = n → ∃ b, c.eval_for_dist f L D = some b ∧
      (b = true ↔ ∀ i, L ≤ i → i + D < c.size → Spec.pair_holds f c i (i + D) = true) := by
  intro n
  induction n with
  | zero =>
      intro L hL
      refine ⟨true, ?_, ?_⟩
      · rw [Node.eval_for_dist]
        simp only [ite_eq_right_iff]
        intro h
        omega
      · simp only [true_iff]
        intro i h1 h2
        omega
  | succ n ih =>
      intro L hL
      have hlt : L + D < c.size := by omega
      rw [Node.eval_for_dist]
      simp only [hlt, if_true]
      rw [c.compare_spec f L (L + D) (by omega) hlt]
      cases hp : Spec.pair_holds f c L (L + D) with
      | false =>
          refine ⟨false, rfl, ?_⟩
          simp only [Bool.false_eq_true, false_iff]
          intro h
          have := h L (Nat.le_refl _) hlt
          rw [hp] at this
          cases this
      | true =>
          obtain ⟨b, hb, hiff⟩ := ih (L + 1) (by omega)
          refine ⟨b, hb, ?_⟩
          rw [hiff]
          constructor
          · intro h i h1 h2
            by_cases hi : i = L
            · rw [hi]; exact hp
            · exact h i (by omega) h2
          · intro h i h1 h2
            exact h i (by omega) h2

theorem Node.eval_for_dist_spec (f : Comparators α) (c : Node α) (L D : Nat) :
    ∃ b, c.eval_for_dist f L D = some b ∧
      (b = true ↔ ∀ i, L ≤ i → i + D < c.size → Spec.pair_holds f c i (i + D) = true) :=
  c.eval_for_dist_aux f D (c.size - (L + D)) L rfl

theorem Node.evaluate_aux (f : Comparators α) (c : Node α) :
    ∀ n D, c.size - D = n → ∃ b, c.evaluate f D = some b ∧
      (b = true ↔ ∀ d, D ≤ d → ∀ i, i + d < c.size → Spec.pair_holds f c i (i + d) = true) := by
  intro n
  induction n with
  | zero =>
      intro D hD
      refine ⟨true, ?_, ?_⟩
      · rw [Node.evaluate]
        simp only [ite_eq_right_iff]
        intro h
        omega
      · simp only [true_iff]
        intro d h1 i h2
        omega
  | succ n ih =>
      intro D hD
      have hlt : D < c.size := by omega
      rw [Node.evaluate]
      simp only [hlt, if_true]
      obtain ⟨b0, hb0, hiff0⟩ := c.eval_for_dist_spec f 0 D
      rw [hb0]
      cases b0 with
      | false =>
          refine ⟨false, rfl, ?_⟩
          simp only [Bool.false_eq_true, false_iff] at hiff0 ⊢
          intro h
          exact hiff0 (fun i _ h2 => h D (Nat.le_refl _) i h2)
      | true =>
          obtain ⟨b, hb, hiff⟩ := ih (D + 1) (by omega)
          refine ⟨b, hb, ?_⟩
          rw [hiff]
          have h0 := hiff0.mp rfl
          constructor
          · intro h d h1 i h2
            by_cases hd : d = D
            · rw [hd] at h2 ⊢
              exact h0 i (Nat.zero_le _) h2
            · exact h d (by omega) i h2
          · intro h d h1 i h2
            exact h d (by omega) i h2

theorem Node.evaluate_spec (f : Comparators α) (c : Node α) (D : Nat) :
    ∃ b, c.evaluate f D = some b ∧
      (b = true ↔ ∀ d, D ≤ d → ∀ i, i + d < c.size → Spec.pair_holds f c i (i + d) = true) :=
  c.evaluate_aux f (c.size - D) D rfl

theorem Node.evaluate_one_spec (f : Comparators α) (c : Node α) :
    ∃ b, c.evaluate f 1 = some b ∧
      (b = true ↔ ∀ i j, i < j → j < c.size → Spec.pair_holds f c i j = true) := by
  obtain ⟨b, hb, hiff⟩ := c.evaluate_spec f 1
  refine ⟨b, hb, ?_⟩
  rw [hiff]
  constructor
  · intro h i j hij hj
    have := h (j - i) (by omega) i (by omega)
    rwa [show i + (j - i) = j by omega] at this
  · intro h d hd i hi
    exact h i (i + d) (by omega) hi

theorem Node.operator_bool_of_lt (f : Comparators α) (c : Node α) (h : 1 < c.size) :
    c.operator_bool f = c.evaluate f 1 :=
  if_pos h

theorem Node.operator_bool_of_le (f : Comparators α) (c : Node α) (h : c.size ≤ 1) :
    c.operator_bool f = none :=
  if_neg (by omega)

theorem Node.operator_bool_spec (f : Comparators α) (c : Node α) (h : 1 < c.size) :
    ∃ b, c.operator_bool f = some b ∧
      (b = true ↔ ∀ i j, i < j → j < c.size → Spec.pair_holds f c i j = true) := by
  rw [c.operator_bool_of_lt f h]
  exact c.evaluate_one_spec f

theorem Spec.evaluate_iff (f : Comparators α) (c : Node α) :
    Spec.evaluate f c = true ↔
      ∀ i j, i < j → j < c.size → Spec.pair_holds f c i j = true := by
  unfold Spec.evaluate
  simp only [List.all_eq_true, List.mem_range]
  constructor
  · intro h i j hij hj
    exact h j hj i hij
  · intro h j hj i hij
    exact h i j hij hj

theorem Spec.pair_holds_iff (f : Comparators α) (c : Node α) (i j : Nat) :
    Spec.pair_holds f c i j = true ↔
      ∃ x y, c.get i = some x ∧ c.get j = some y ∧
        Spec.compare f x y (Spec.effective c i j) = true := by
  unfold Spec.pair_holds
  cases hx : c.get i with
  | none => simp
  | some x =>
      cases hy : c.get j with
      | none => simp
      | some y => simp

theorem Node.evaluate_one_eq_true_iff (f : Comparators α) (c : Node α) :
    c.evaluate f 1 = some true ↔
      ∀ i j, i < j → j < c.size → Spec.pair_holds f c i j = true := by
  obtain ⟨b, hb, hiff⟩ := c.evaluate_one_spec f
  rw [hb, Option.some.injEq, hiff]

theorem Node.evaluate_one_eq_evaluate (f : Comparators α) (c : Node α) :
    c.evaluate f 1 = some (Spec.evaluate f c) := by
  obtain ⟨b, hb, hiff⟩ := c.evaluate_one_spec f
  have heq : b = Spec.evaluate f c := by
    rw [Bool.eq_iff_iff, hiff, Spec.evaluate_iff]
  rw [hb, heq]

theorem Node.operator_bool_eq_true_iff (f : Comparators α) (c : Node α) :
    c.operator_bool f = some true ↔
      1 < c.size ∧ ∀ i j, i < j → j < c.size → Spec.pair_holds f c i j = true := by
  by_cases h : 1 < c.size
  · rw [c.operator_bool_of_lt f h, Node.evaluate_one_eq_true_iff]
    exact ⟨fun hp => ⟨h, hp⟩, fun hp => hp.2⟩
  · rw [c.operator_bool_of_le f (by omega)]
    exact ⟨fun hp => (by cases hp), fun hp => absurd hp.1 h⟩

theorem Node.operator_bool_eq_evaluate (f : Comparators α) (c : Node α) (h : 1 < c.size) :
    c.operator_bool f = some (Spec.evaluate f c) := by
  rw [c.operator_bool_of_lt f h]
  exact c.evaluate_one_eq_evaluate f

/-- C2. For a pair of positions `i < j` of a chain, `check_all_less_equal<i, j>()` returns
`true` iff `op<k>()` is `std::less_equal<>` for every `k` with `i < k <= j`, returns `false` iff
one of these operators is `std::less<>`, and `compare<i, j>()` applies `<=` in the first case
and `<` in the second. -/
theorem C2_effective_operator (f : Comparators α) (c : Node α) (i j : Nat)
    (hij : i < j) (hj : j < c.size) :
    ∃ b x y, c.check_all_less_equal i j = some b ∧ c.get i = some x ∧ c.get j = some y ∧
      (b = true ↔ ∀ k, i < k → k ≤ j → c.op k = some OpType.less_equal) ∧
      (b = false ↔ ∃ k, i < k ∧ k ≤ j ∧ c.op k = some OpType.less) ∧
      c.compare f i j = some (if b = true then f.less_equal x y else f.less x y) := by
  obtain ⟨b, hb, hiff⟩ := c.check_all_less_equal_spec i j hj
  obtain ⟨x, hx⟩ := c.get_of_lt i (by omega)
  obtain ⟨y, hy⟩ := c.get_of_lt j hj
  refine ⟨b, x, y, hb, hx, hy, hiff, ?_, ?_⟩
  · constructor
    · intro hf
      have hnot : ¬ ∀ k, i < k → k ≤ j → c.op k = some OpType.less_equal := by
        intro h
        rw [hiff.mpr h] at hf
        cases hf
      push_neg at hnot
      obtain ⟨k, h1, h2, h3⟩ := hnot
      obtain ⟨o, ho⟩ := c.op_of_lt k (by omega) (by omega)
      refine ⟨k, h1, h2, ?_⟩
      cases o with
      | less => exact ho
      | less_equal => exact absurd ho h3
    · rintro ⟨k, h1, h2, h3⟩
      cases b with
      | false => rfl
      | true =>
          have := hiff.mp rfl k h1 h2
          rw [h3] at this
          cases this
  · unfold Node.compare
    rw [hb, hx, hy]
    cases b <;> rfl

/-- Witness of C2 on the chain `1 < 2 <= 2`, pair `(0, 2)`. -/
theorem C2_effective_operator_witness :
    ∃ b x y,
      (((Chain_root.operator_shl (1 : Int)).operator_lt 2).operator_le 2).check_all_less_equal 0 2
          = some b ∧
      (((Chain_root.operator_shl (1 : Int)).operator_lt 2).operator_le 2).get 0 = some x ∧
      (((Chain_root.operator_shl (1 : Int)).operator_lt 2).operator_le 2).get 2 = some y ∧
      (b = true ↔ ∀ k, 0 < k → k ≤ 2 →
        (((Chain_root.operator_shl (1 : Int)).operator_lt 2).operator_le 2).op k
          = some OpType.less_equal) ∧
      (b = false ↔ ∃ k, 0 < k ∧ k ≤ 2 ∧
        (((Chain_root.operator_shl (1 : Int)).operator_lt 2).operator_le 2).op k
          = some OpType.less) ∧
      (((Chain_root.operator_shl (1 : Int)).operator_lt 2).operator_le 2).compare
          intComparators 0 2
        = some (if b = true then intComparators.less_equal x y else intComparators.less x y) :=
  C2_effective_operator intComparators
    (((Chain_root.operator_shl (1 : Int)).operator_lt 2).operator_le 2) 0 2
    (by decide) (by decide)

/-- C4. Two-element equivalence: the chain `begin(a)` extended by `(OP, b)` evaluates to
exactly `compare(a, b, OP)`: `a < b` through `operator<`, `a <= b` through `operator<=`. -/
theorem C4_two_element_equivalence (f : Comparators α) (a b : α) :
    (∀ OP, (Spec.append (Chain_root.operator_shl a) OP b).operator_bool f
        = some (Spec.compare f a b OP)) ∧
      ((Chain_root.operator_shl a).operator_lt b).operator_bool f = some (f.less a b) ∧
      ((Chain_root.operator_shl a).operator_le b).operator_bool f = some (f.less_equal a b) := by
  have h1 : ((Chain_root.operator_shl a).operator_lt b).operator_bool f = some (f.less a b) := by
    simp [Node.operator_bool, Node.evaluate, Node.eval_for_dist, Node.compare,
      Node.check_all_less_equal, Node.op, Node.get, Node.size, Node.index, Node.operator_lt,
      Chain_root.operator_shl]
    cases f.less a b <;> rfl
  have h2 : ((Chain_root.operator_shl a).operator_le b).operator_bool f
      = some (f.less_equal a b) := by
    simp [Node.operator_bool, Node.evaluate, Node.eval_for_dist, Node.compare,
      Node.check_all_less_equal, Node.op, Node.get, Node.size, Node.index, Node.operator_le,
      Chain_root.operator_shl]
    cases f.less_equal a b <;> rfl
  refine ⟨?_, h1, h2⟩
  intro OP
  cases OP with
  | less => exact h1
  | less_equal => exact h2

theorem Node.operator_bool_three (f : Comparators α) (a b c : α) (OP1 OP2 : OpType) :
    (Spec.append (Spec.append (Chain_root.operator_shl a) OP1 b) OP2 c).operator_bool f
      = some (Spec.compare f a b OP1 && Spec.compare f b c OP2 &&
          Spec.compare f a c
            (if OP1 = OpType.less_equal ∧ OP2 = OpType.less_equal then OpType.less_equal
             else OpType.less)) := by
  cases OP1 <;> cases OP2 <;>
    simp [Spec.append, Spec.compare, Node.operator_bool, Node.evaluate, Node.eval_for_dist,
      Node.compare, Node.check_all_less_equal, Node.op, Node.get, Node.size, Node.index,
      Node.operator_lt, Node.operator_le, Chain_root.operator_shl]
  · cases f.less a b <;> cases f.less b c <;> cases f.less a c <;> rfl
  · cases f.less a b <;> cases f.less_equal b c <;> cases f.less a c <;> rfl
  · cases f.less_equal a b <;> cases f.less b c <;> cases f.less a c <;> rfl
  · cases f.less_equal a b <;> cases f.less_equal b c <;> cases f.less_equal a c <;> rfl

/-- C5. Transitivity derivation: the chain `a OP1 b OP2 c` evaluates to
`compare(a,b,OP1) && compare(b,c,OP2) && compare(a,c,E)`, where `E` is `LESS_OR_EQUAL` iff both
`OP1` and `OP2` are `LESS_OR_EQUAL`, and `LESS` otherwise. -/
theorem C5_transitivity_derivation (f : Comparators α) (a b c : α) (OP1 OP2 : OpType) :
    (Spec.append (Spec.append (Chain_root.operator_shl a) OP1 b) OP2 c).operator_bool f
      = some (Spec.compare f a b OP1 && Spec.compare f b c OP2 &&
          Spec.compare f a c
            (if OP1 = OpType.less_equal ∧ OP2 = OpType.less_equal then OpType.less_equal
             else OpType.less)) :=
  Node.operator_bool_three f a b c OP1 OP2

/-- C6. The length-1 chain `chain_root << x` has no boolean conversion: `operator bool` calls
`evaluate()` without a template argument, and on a chain of size 1 no `evaluate` overload is
viable, so the conversion returns nothing instead of `true`.  The overload that handles a chain
with no pair to compare exists, and the explicit call `evaluate<1>()` reaches it and returns
`true`. -/
theorem C6_single_element_conversion (f : Comparators α) :
    (∀ x : α, (Chain_root.operator_shl x).operator_bool f = none) ∧
      (∀ x : α, (Chain_root.operator_shl x).evaluate f 1 = some true) ∧
      (∀ c : Node α, c.size ≤ 1 → c.operator_bool f = none ∧ c.evaluate f 1 = some true) := by
  have h : ∀ c : Node α, c.size ≤ 1 → c.operator_bool f = none ∧ c.evaluate f 1 = some true := by
    intro c hc
    refine ⟨c.operator_bool_of_le f hc, ?_⟩
    rw [Node.evaluate]
    rw [if_neg (by omega)]
  have hroot : ∀ x : α, (Chain_root.operator_shl x).size ≤ 1 := fun x => Nat.le_refl _
  exact ⟨fun x => (h _ (hroot x)).1, fun x => (h _ (hroot x)).2, h⟩

/-- C7. Append postcondition: appending `(OP, v)` to a chain `c` of size `n` returns a chain of
size `n + 1` whose operands and operators at the positions below `n` are those of `c`, whose
operand `n` is `v` and whose operator preceding position `n` is `OP`; `c` itself is left as it
was. -/
theorem C7_append_postcondition (c : Node α) (OP : OpType) (v : α) :
    (Spec.append_run c OP v).1 = Spec.append c OP v ∧
      (Spec.append_run c OP v).2 = c ∧
      (Spec.append c OP v).size = c.size + 1 ∧
      (∀ i, i < c.size → (Spec.append c OP v).get i = c.get i) ∧
      (∀ i, i < c.size → (Spec.append c OP v).op i = c.op i) ∧
      (Spec.append c OP v).get c.size = some v ∧
      (Spec.append c OP v).op c.size = some OP := by
  cases OP <;>
    simp only [Spec.append_run, Spec.append, Node.operator_lt_run, Node.operator_le_run,
      Node.operator_lt, Node.operator_le, Node.size, Node.index, Node.get, Node.op, if_true,
      true_and] <;>
    exact ⟨fun i hi => if_neg (by omega), fun i hi => if_neg (by omega), trivial⟩

/-- C8. Initiator postcondition: `chain_root << x` is a chain of size 1 whose operand 0 is `x`
and which records no operator; every chain reached from it by `k` appends has size `k + 1`. -/
theorem C8_initiator_postcondition (x : α) :
    (Chain_root.operator_shl x).size = 1 ∧
      (Chain_root.operator_shl x).get 0 = some x ∧
      (∀ k, (Chain_root.operator_shl x).op k = none) ∧
      (∀ steps : List (OpType × α),
        (Spec.appends (Chain_root.operator_shl x) steps).size = steps.length + 1 ∧
        1 ≤ (Spec.appends (Chain_root.operator_shl x) steps).size) := by
  refine ⟨rfl, rfl, fun k => rfl, ?_⟩
  have h : ∀ (steps : List (OpType × α)) (c : Node α),
      (Spec.appends c steps).size = steps.length + c.size := by
    intro steps
    induction steps with
    | nil => intro c; simp [Spec.appends]
    | cons step rest ih =>
        intro c
        have hs : (Spec.append c step.1 step.2).size = c.size + 1 := by
          cases hop : step.1 <;> rfl
        have := ih (Spec.append c step.1 step.2)
        simp only [Spec.appends, List.foldl_cons, List.length_cons] at this ⊢
        rw [this, hs]
        omega
  intro steps
  have := h steps (Chain_root.operator_shl x)
  have h1 : (Chain_root.operator_shl x).size = 1 := rfl
  rw [h1] at this
  exact ⟨this, by omega⟩

/-! ## Evaluation leaves the program state as it was -/

theorem Node.compare_run_eq {σ ρ : Type} (F : Comparators_run σ ρ) (c : Node ρ) (L R : Nat)
    (s : σ) (hpure : F.side_effect_free) :
    c.compare_run F L R s = (c.compare (F.in_state s) L R).map fun b => (b, s) := by
  unfold Node.compare_run Node.compare
  split
  · rename_i l r h1 h2 h3
    simp only [Option.map_some', Comparators_run.in_state]
    exact congrArg some (Prod.ext rfl (hpure l r s).2)
  · rename_i l r h1 h2 h3
    simp only [Option.map_some', Comparators_run.in_state]
    exact congrArg some (Prod.ext rfl (hpure l r s).1)
  · rfl

theorem Node.eval_for_dist_run_aux {σ ρ : Type} (F : Comparators_run σ ρ) (c : Node ρ) (D : Nat)
    (s : σ) (hpure : F.side_effect_free) :
    ∀ n L, c.size - (L + D) = n →
      c.eval_for_dist_run F L D s = (c.eval_for_dist (F.in_state s) L D).map fun b => (b, s) := by
  intro n
  induction n with
  | zero =>
      intro L hL
      rw [Node.eval_for_dist_run, Node.eval_for_dist]
      rw [if_neg (by omega), if_neg (by omega)]
      rfl
  | succ n ih =>
      intro L hL
      rw [Node.eval_for_dist_run, Node.eval_for_dist]
      rw [if_pos (by omega), if_pos (by omega), c.compare_run_eq F L (L + D) s hpure]
      cases c.compare (F.in_state s) L (L + D) with
      | none => rfl
      | some b =>
          cases b with
          | false => rfl
          | true => exact ih (L + 1) (by omega)

theorem Node.evaluate_run_aux {σ ρ : Type} (F : Comparators_run σ ρ) (c : Node ρ) (s : σ)
    (hpure : F.side_effect_free) :
    ∀ n D, c.size - D = n →
      c.evaluate_run F D s = (c.evaluate (F.in_state s) D).map fun b => (b, s) := by
  intro n
  induction n with
  | zero =>
      intro D hD
      rw [Node.evaluate_run, Node.evaluate]
      rw [if_neg (by omega), if_neg (by omega)]
      rfl
  | succ n ih =>
      intro D hD
      rw [Node.evaluate_run, Node.evaluate]
      rw [if_pos (by omega), if_pos (by omega),
        c.eval_for_dist_run_aux F D s hpure (c.size - (0 + D)) 0 rfl]
      cases c.eval_for_dist (F.in_state s) 0 D with
      | none => rfl
      | some b =>
          cases b with
          | false => rfl
          | true => exact ih (D + 1) (by omega)

theorem Node.operator_bool_run_eq {σ ρ : Type} (F : Comparators_run σ ρ) (c : Node ρ) (s : σ)
    (hpure : F.side_effect_free) :
    c.operator_bool_run F s = (c.operator_bool (F.in_state s)).map fun b => (b, s) := by
  unfold Node.operator_bool_run Node.operator_bool
  by_cases h : 1 < c.size
  · rw [if_pos h, if_pos h]
    exact c.evaluate_run_aux F s hpure (c.size - 1) 1 rfl
  · rw [if_neg h, if_neg h]
    rfl

theorem storeComparators_side_effect_free : storeComparators.side_effect_free :=
  fun _ _ _ => ⟨rfl, rfl⟩

/-- With an operand type whose comparisons write to their operand, two conversions of the chain
`x < y` in a row, `x = 1` and `y = 2` at the start, return `true` and then `false`, and leave
`x = 3`. -/
theorem Node.operator_bool_twice_writing :
    ((Chain_root.operator_shl 0).operator_lt 1).operator_bool_twice writingComparators [1, 2]
      = some (true, false, [3, 2]) := by
  simp [Node.operator_bool_twice, Node.operator_bool_run, Node.evaluate_run,
    Node.eval_for_dist_run, Node.compare_run, Node.check_all_less_equal, Node.op, Node.get,
    Node.size, Node.index, Node.operator_lt, Chain_root.operator_shl, writingComparators]

/-- C9. Idempotence: when the comparisons of the operand type are free of side effects,
evaluating a chain returns a boolean and leaves the program state, hence every operand, as it
was (the operators are part of the chain's type); so evaluating it twice in a row yields the
same boolean both times.  This holds for `evaluate<1>()` on every chain and for the boolean
conversion on every chain of at least two operands. -/
theorem C9_idempotence {σ ρ : Type} (F : Comparators_run σ ρ) (c : Node ρ) (s : σ)
    (hpure : F.side_effect_free) :
    (∃ b, c.evaluate_run F 1 s = some (b, s) ∧ c.evaluate (F.in_state s) 1 = some b) ∧
      (2 ≤ c.size →
        ∃ b, c.operator_bool_run F s = some (b, s) ∧
          c.operator_bool_twice F s = some (b, b, s) ∧
          c.operator_bool (F.in_state s) = some b) := by
  constructor
  · obtain ⟨b, hb, _⟩ := c.evaluate_one_spec (F.in_state s)
    refine ⟨b, ?_, hb⟩
    rw [c.evaluate_run_aux F s hpure (c.size - 1) 1 rfl, hb]
    rfl
  · intro hn
    obtain ⟨b, hb, _⟩ := c.operator_bool_spec (F.in_state s) (by omega)
    have hrun : c.operator_bool_run F s = some (b, s) := by
      rw [c.operator_bool_run_eq F s hpure, hb]
      rfl
    refine ⟨b, hrun, ?_, hb⟩
    unfold Node.operator_bool_twice
    simp only [hrun]

/-- Witness of C9: the chain `x < y <= z` over the store `[1, 2, 2]`, with the built-in
comparisons of `int`. -/
theorem C9_idempotence_witness :
    storeComparators.side_effect_free ∧
      ∃ b, (((Chain_root.operator_shl 0).operator_lt 1).operator_le 2).operator_bool_twice
        storeComparators [1, 2, 2] = some (b, b, [1, 2, 2]) :=
  ⟨storeComparators_side_effect_free,
    ((C9_idempotence storeComparators
      (((Chain_root.operator_shl 0).operator_lt 1).operator_le 2) [1, 2, 2]
      storeComparators_side_effect_free).2 (by decide)).imp fun _ h => h.2.1⟩

/-- C10. Impossible range: when `a < b` is false, the chain `a < y < b` evaluates to `false`
whatever `y` is. -/
theorem C10_impossible_range (f : Comparators α) (a y b : α) (h : f.less a b = false) :
    (((Chain_root.operator_shl a).operator_lt y).operator_lt b).operator_bool f = some false := by
  have h3 := Node.operator_bool_three f a y b OpType.less OpType.less
  simp only [Spec.append, Spec.compare] at h3
  rw [h3]
  simp [h]

/-- Witnesses of C10: `5 < 10 < 1`, and the example's `5 < y < 0` and `6 < y < 1` for every
`y`. -/
theorem C10_impossible_range_witness :
    (((Chain_root.operator_shl (5 : Int)).operator_lt 10).operator_lt 1).operator_bool
        intComparators = some false ∧
      (∀ y : Int, (((Chain_root.operator_shl (5 : Int)).operator_lt y).operator_lt 0).operator_bool
        intComparators = some false) ∧
      (∀ y : Int, (((Chain_root.operator_shl (6 : Int)).operator_lt y).operator_lt 1).operator_bool
        intComparators = some false) :=
  ⟨C10_impossible_range intComparators 5 10 1 (by decide),
   fun y => C10_impossible_range intComparators 5 y 0 (by decide),
   fun y => C10_impossible_range intComparators 6 y 1 (by decide)⟩

/-- C3. A chain built with `<` accepts a `GREATER`-family operator with an `int` right operand and
yields a runtime boolean: `chain_root << 1 < 2 > 3` is `false`, `chain_root << 1 < 2 >= 0` is
`true`, and `chain > rhs` is a boolean for every chain of at least two operands and every `rhs`
(on a chain of one operand the conversion that `>` goes through is ill-formed). -/
theorem C3_greater_on_ascending_chain :
    ((Chain_root.operator_shl (1 : Int)).operator_lt 2).builtin_gt intComparators 3
        = some false ∧
      ((Chain_root.operator_shl (1 : Int)).operator_lt 2).builtin_ge intComparators 0
        = some true ∧
      (∀ (f : Comparators Int) (c : Node Int) (rhs : Int), 2 ≤ c.size →
        ∃ b, c.builtin_gt f rhs = some b) ∧
      (Chain_root.operator_shl (5 : Int)).builtin_gt intComparators 3 = none := by
  refine ⟨?_, ?_, ?_, ?_⟩
  · simp [Node.builtin_gt, Node.operator_bool, Node.evaluate, Node.eval_for_dist, Node.compare,
      Node.check_all_less_equal, Node.op, Node.get, Node.size, Node.index, Node.operator_lt,
      Chain_root.operator_shl, intComparators]
  · simp [Node.builtin_ge, Node.operator_bool, Node.evaluate, Node.eval_for_dist, Node.compare,
      Node.check_all_less_equal, Node.op, Node.get, Node.size, Node.index, Node.operator_lt,
      Chain_root.operator_shl, intComparators]
  · intro f c rhs hn
    obtain ⟨b, hb, _⟩ := c.operator_bool_spec f (by omega)
    exact ⟨_, by rw [Node.builtin_gt, hb]; rfl⟩
  · rw [Node.builtin_gt, Node.operator_bool_of_le _ _ (by decide)]
    rfl

/-! ## Concrete scenarios -/

/-- C11. The six-operand chain `1 < 2 <= 2 < 5 <= 7 < 6` evaluates to `false`, while its prefix
`1 < 2 <= 2 < 5 <= 7` evaluates to `true`. -/
theorem C11_six_operand_scenario :
    ((((((Chain_root.operator_shl (1 : Int)).operator_lt 2).operator_le 2).operator_lt
        5).operator_le 7).operator_lt 6).operator_bool intComparators = some false ∧
      (((((Chain_root.operator_shl (1 : Int)).operator_lt 2).operator_le 2).operator_lt
        5).operator_le 7).operator_bool intComparators = some true := by
  constructor <;>
    simp [Node.operator_bool, Node.evaluate, Node.eval_for_dist, Node.compare,
      Node.check_all_less_equal, Node.op, Node.get, Node.size, Node.index, Node.operator_lt,
      Node.operator_le, Chain_root.operator_shl, intComparators]

theorem Spec.all_equal_invariant (x : α) (m : Nat) :
    ∀ c : Node α,
      ((∀ k v, c.get k = some v → v = x) ∧ (∀ k o, c.op k = some o → o = OpType.less_equal)) →
      ((∀ k v, (Spec.appends c (List.replicate m (OpType.less_equal, x))).get k = some v →
          v = x) ∧
        (∀ k o, (Spec.appends c (List.replicate m (OpType.less_equal, x))).op k = some o →
          o = OpType.less_equal) ∧
        (Spec.appends c (List.replicate m (OpType.less_equal, x))).size = c.size + m) := by
  induction m with
  | zero =>
      intro c h
      exact ⟨h.1, h.2, rfl⟩
  | succ m ih =>
      intro c h
      have hstep : (∀ k v, (c.operator_le x).get k = some v → v = x) ∧
          (∀ k o, (c.operator_le x).op k = some o → o = OpType.less_equal) := by
        constructor
        · intro k v hk
          simp only [Node.operator_le, Node.get] at hk
          split at hk
          · exact (Option.some.inj hk).symm
          · exact h.1 k v hk
        · intro k o hk
          simp only [Node.operator_le, Node.op] at hk
          split at hk
          · exact (Option.some.inj hk).symm
          · exact h.2 k o hk
      obtain ⟨h1, h2, h3⟩ := ih (c.operator_le x) hstep
      have hsize : (c.operator_le x).size = c.size + 1 := rfl
      simp only [Spec.appends, List.replicate_succ, List.foldl_cons, Spec.append] at h1 h2 h3 ⊢
      exact ⟨h1, h2, by rw [h3, hsize]; omega⟩

/-- C12. All-equal non-strict chain: when `x <= x` holds, the chain `x <= x <= ... <= x` of
any length `n ≥ 2` evaluates to `true`, every pair (adjacent or not) being compared with
`<=`. -/
theorem C12_all_equal_chain (f : Comparators α) (x : α) (n : Nat)
    (hx : f.less_equal x x = true) (hn : 2 ≤ n) :
    (Spec.all_equal_chain x n).size = n ∧
      (Spec.all_equal_chain x n).operator_bool f = some true ∧
      (∀ i j, i < j → j < n →
        (Spec.all_equal_chain x n).check_all_less_equal i j = some true ∧
        (Spec.all_equal_chain x n).compare f i j = some (f.less_equal x x)) := by
  have hroot : (∀ k v, (Chain_root.operator_shl x).get k = some v → v = x) ∧
      (∀ k o, (Chain_root.operator_shl x).op k = some o → o = OpType.less_equal) := by
    constructor
    · intro k v hk
      simp only [Chain_root.operator_shl, Node.get] at hk
      split at hk
      · exact (Option.some.inj hk).symm
      · cases hk
    · intro k o hk
      cases hk
  obtain ⟨h1, h2, h3⟩ := Spec.all_equal_invariant x (n - 1) (Chain_root.operator_shl x) hroot
  have hsize : (Spec.all_equal_chain x n).size = n := by
    unfold Spec.all_equal_chain
    rw [h3]
    have : (Chain_root.operator_shl x).size = 1 := rfl
    omega
  have hget : ∀ k, k < n → (Spec.all_equal_chain x n).get k = some x := by
    intro k hk
    obtain ⟨v, hv⟩ := (Spec.all_equal_chain x n).get_of_lt k (by omega)
    rw [hv, h1 k v hv]
  have hcheck : ∀ i j, i < j → j < n →
      (Spec.all_equal_chain x n).check_all_less_equal i j = some true := by
    intro i j hij hj
    obtain ⟨b, hb, hiff⟩ := (Spec.all_equal_chain x n).check_all_less_equal_spec i j (by omega)
    have : b = true := hiff.mpr (fun k hk1 hk2 => by
      obtain ⟨o, ho⟩ := (Spec.all_equal_chain x n).op_of_lt k (by omega) (by omega)
      rw [ho, h2 k o ho])
    rw [hb, this]
  have hcmp : ∀ i j, i < j → j < n →
      (Spec.all_equal_chain x n).compare f i j = some (f.less_equal x x) := by
    intro i j hij hj
    unfold Node.compare
    rw [hcheck i j hij hj, hget i (by omega), hget j hj]
  refine ⟨hsize, ?_, fun i j hij hj => ⟨hcheck i j hij hj, hcmp i j hij hj⟩⟩
  rw [Node.operator_bool_eq_true_iff]
  refine ⟨by omega, ?_⟩
  intro i j hij hj
  rw [hsize] at hj
  have h := (Spec.all_equal_chain x n).compare_spec f i j (by omega) (by omega)
  rw [hcmp i j hij hj, hx] at h
  exact (Option.some.inj h).symm

/-- Witness of C12: `3 <= 3 <= 3` evaluates to `true`. -/
theorem C12_all_equal_chain_witness :
    (Spec.all_equal_chain (3 : Int) 3).size = 3 ∧
      (Spec.all_equal_chain (3 : Int) 3).operator_bool intComparators = some true ∧
      (∀ i j, i < j → j < 3 →
        (Spec.all_equal_chain (3 : Int) 3).check_all_less_equal i j = some true ∧
        (Spec.all_equal_chain (3 : Int) 3).compare intComparators i j
          = some (intComparators.less_equal 3 3)) :=
  C12_all_equal_chain intComparators 3 3 (by decide) (by decide)

/-- C13. Under the lexicographic ordering of strings, the chain `"abb" <= "abc" < "abe"`
evaluates to `true`: `"abb" <= "abc"`, `"abc" < "abe"` and the derived strict pair
`"abb" < "abe"` all hold. -/
theorem C13_string_scenario :
    (((Chain_root.operator_shl "abb").operator_le "abc").operator_lt "abe").operator_bool
        stringComparators = some true ∧
      stringComparators.less_equal "abb" "abc" = true ∧
      stringComparators.less "abc" "abe" = true ∧
      stringComparators.less "abb" "abe" = true := by
  have h1 : stringComparators.less_equal "abb" "abc" = true :=
    decide_eq_true (by rw [String.le_iff_toList_le]; decide)
  have h2 : stringComparators.less "abc" "abe" = true :=
    decide_eq_true (by rw [String.lt_iff_toList_lt]; decide)
  have h3 : stringComparators.less "abb" "abe" = true :=
    decide_eq_true (by rw [String.lt_iff_toList_lt]; decide)
  refine ⟨?_, h1, h2, h3⟩
  have h := Node.operator_bool_three stringComparators "abb" "abc" "abe"
    OpType.less_equal OpType.less
  simp only [Spec.append, Spec.compare] at h
  rw [h, h1, h2]
  simp [h3]

/-- C16. The cross-pair rule is stronger than adjacent-only checking: for the successor
comparison (not transitive) and the chain `0 < 1 < 2`, both adjacent comparisons hold, the
derived pair `0 < 2` fails, and the chain evaluates to `false`, which is not the conjunction of
the adjacent comparisons. -/
theorem C16_cross_pair_stronger :
    successorComparators.less 0 1 = true ∧
      successorComparators.less 1 2 = true ∧
      successorComparators.less 0 2 = false ∧
      (((Chain_root.operator_shl 0).operator_lt 1).operator_lt 2).operator_bool
        successorComparators = some false ∧
      (((Chain_root.operator_shl 0).operator_lt 1).operator_lt 2).operator_bool
        successorComparators
        ≠ some (successorComparators.less 0 1 && successorComparators.less 1 2) := by
  have h := Node.operator_bool_three successorComparators 0 1 2 OpType.less OpType.less
  simp only [Spec.append, Spec.compare] at h
  refine ⟨by decide, by decide, by decide, ?_, ?_⟩
  · rw [h]; decide
  · rw [h]; decide

/-! ## Adjacent comparisons and the effective operator -/

theorem Spec.effective_succ (c : Node α) (i j : Nat) :
    Spec.effective c i (j + 1) = OpType.less_equal ↔
      Spec.effective c i j = OpType.less_equal ∧
        (i < j + 1 → c.op (j + 1) = some OpType.less_equal) := by
  simp only [Spec.effective_eq_less_equal_iff]
  constructor
  · intro h
    exact ⟨fun k h1 h2 => h k h1 (by omega), fun hi => h (j + 1) hi (Nat.le_refl _)⟩
  · rintro ⟨h1, h2⟩ k hk1 hk2
    by_cases hk : k = j + 1
    · rw [hk]
      exact h2 (by omega)
    · exact h1 k hk1 (by omega)

theorem Spec.effective_adjacent (c : Node α) (i : Nat) (o : OpType)
    (ho : c.op (i + 1) = some o) : Spec.effective c i (i + 1) = o := by
  cases o with
  | less_equal =>
      rw [Spec.effective_eq_less_equal_iff]
      intro k h1 h2
      have : k = i + 1 := by omega
      rw [this, ho]
  | less =>
      cases h : Spec.effective c i (i + 1) with
      | less => rfl
      | less_equal =>
          rw [Spec.effective_eq_less_equal_iff] at h
          have := h (i + 1) (by omega) (Nat.le_refl _)
          rw [ho] at this
          cases this

theorem Spec.adjacent_holds_eq (f : Comparators α) (c : Node α) (k : Nat)
    (hk : k + 1 < c.size) : Spec.adjacent_holds f c k = Spec.pair_holds f c k (k + 1) := by
  obtain ⟨o, ho⟩ := c.op_of_lt (k + 1) (Nat.succ_pos _) hk
  unfold Spec.adjacent_holds Spec.pair_holds
  rw [ho, Spec.effective_adjacent c k o ho]
  cases c.get k <;> cases c.get (k + 1) <;> rfl

theorem Spec.adjacent_only_iff (f : Comparators α) (c : Node α) :
    Spec.adjacent_only f c = true ↔
      ∀ k, k + 1 < c.size → Spec.pair_holds f c k (k + 1) = true := by
  unfold Spec.adjacent_only
  simp only [List.all_eq_true, List.mem_range]
  constructor
  · intro h k hk
    rw [← Spec.adjacent_holds_eq f c k hk]
    exact h k (by omega)
  · intro h k hk
    rw [Spec.adjacent_holds_eq f c k (by omega)]
    exact h k (by omega)

theorem Spec.compare_order_less {β : Type} [LinearOrder β] (x y : β) :
    Spec.compare (orderComparators β) x y OpType.less = true ↔ x < y := by
  simp [Spec.compare, orderComparators]

theorem Spec.compare_order_less_equal {β : Type} [LinearOrder β] (x y : β) :
    Spec.compare (orderComparators β) x y OpType.less_equal = true ↔ x ≤ y := by
  simp [Spec.compare, orderComparators]

theorem Spec.pair_holds_of_adjacent {β : Type} [LinearOrder β] (c : Node β)
    (hadj : ∀ k, k + 1 < c.size → Spec.pair_holds (orderComparators β) c k (k + 1) = true) :
    ∀ d i, i + d + 1 < c.size → Spec.pair_holds (orderComparators β) c i (i + d + 1) = true := by
  intro d
  induction d with
  | zero =>
      intro i hi
      exact hadj i hi
  | succ d ih =>
      intro i hi
      show Spec.pair_holds (orderComparators β) c i (i + d + 1 + 1) = true
      have h1 := ih i (by omega)
      have h2 := hadj (i + d + 1) (by omega)
      rw [Spec.pair_holds_iff] at h1 h2
      obtain ⟨x, y, hx, hy, hxy⟩ := h1
      obtain ⟨y', z, hy', hz, hyz⟩ := h2
      rw [hy] at hy'
      cases Option.some.inj hy'
      obtain ⟨o, ho⟩ := c.op_of_lt (i + d + 1 + 1) (Nat.succ_pos _) (by omega)
      rw [Spec.effective_adjacent c (i + d + 1) o ho] at hyz
      rw [Spec.pair_holds_iff]
      refine ⟨x, z, hx, hz, ?_⟩
      have hsucc := Spec.effective_succ c i (i + d + 1)
      rw [ho] at hsucc
      cases hE2 : Spec.effective c i (i + d + 1 + 1) with
      | less_equal =>
          obtain ⟨hE1, hop⟩ := hsucc.mp hE2
          have hoeq : o = OpType.less_equal := Option.some.inj (hop (by omega))
          rw [hE1] at hxy
          rw [hoeq] at hyz
          rw [Spec.compare_order_less_equal] at hxy hyz ⊢
          exact le_trans hxy hyz
      | less =>
          rw [Spec.compare_order_less]
          cases hE1 : Spec.effective c i (i + d + 1) with
          | less =>
              rw [hE1, Spec.compare_order_less] at hxy
              cases o with
              | less =>
                  rw [Spec.compare_order_less] at hyz
                  exact lt_trans hxy hyz
              | less_equal =>
                  rw [Spec.compare_order_less_equal] at hyz
                  exact lt_of_lt_of_le hxy hyz
          | less_equal =>
              rw [hE1, Spec.compare_order_less_equal] at hxy
              cases o with
              | less =>
                  rw [Spec.compare_order_less] at hyz
                  exact lt_of_le_of_lt hxy hyz
              | less_equal =>
                  have := hsucc.mpr ⟨hE1, fun _ => rfl⟩
                  rw [hE2] at this
                  cases this

/-- C14. Agreement with the mathematical reading: over a linearly ordered operand type, with
`<` and `<=` the order's strict and non-strict comparisons, the all-pairs evaluation of any
chain (`evaluate<1>()`, and the boolean conversion of a chain of at least two operands) returns
the same boolean as the plain conjunction of its adjacent comparisons. -/
theorem C14_agrees_with_adjacent_conjunction {β : Type} [LinearOrder β] (c : Node β) :
    c.evaluate (orderComparators β) 1 = some (Spec.adjacent_only (orderComparators β) c) ∧
      (2 ≤ c.size →
        c.operator_bool (orderComparators β)
          = some (Spec.adjacent_only (orderComparators β) c)) := by
  have h : c.evaluate (orderComparators β) 1
      = some (Spec.adjacent_only (orderComparators β) c) := by
    rw [Node.evaluate_one_eq_evaluate]
    congr 1
    rw [Bool.eq_iff_iff, Spec.evaluate_iff, Spec.adjacent_only_iff]
    constructor
    · intro h k hk
      exact h k (k + 1) (by omega) hk
    · intro h i j hij hj
      have := Spec.pair_holds_of_adjacent c h (j - i - 1) i (by omega)
      rwa [show i + (j - i - 1) + 1 = j by omega] at this
  exact ⟨h, fun hn => by rw [c.operator_bool_of_lt _ (by omega), h]⟩

/-! ## Extending a chain -/

theorem Spec.append_size (c : Node α) (OP : OpType) (v : α) :
    (Spec.append c OP v).size = c.size + 1 := by
  cases OP <;> rfl

theorem Spec.append_get_of_lt (c : Node α) (OP : OpType) (v : α) (i : Nat) (hi : i < c.size) :
    (Spec.append c OP v).get i = c.get i := by
  cases OP <;>
    simp only [Spec.append, Node.operator_lt, Node.operator_le, Node.get, Node.index] <;>
    exact if_neg (by simp only [Node.size] at hi; omega)

theorem Spec.append_get_last (c : Node α) (OP : OpType) (v : α) :
    (Spec.append c OP v).get c.size = some v := by
  cases OP <;> simp [Spec.append, Node.operator_lt, Node.operator_le, Node.get, Node.index,
    Node.size]

theorem Spec.append_op_of_lt (c : Node α) (OP : OpType) (v : α) (i : Nat) (hi : i < c.size) :
    (Spec.append c OP v).op i = c.op i := by
  cases OP <;>
    simp only [Spec.append, Node.operator_lt, Node.operator_le, Node.op, Node.index] <;>
    exact if_neg (by simp only [Node.size] at hi; omega)

theorem Spec.effective_congr (c c' : Node α) (i j : Nat)
    (h : ∀ k, i < k → k ≤ j → c'.op k = c.op k) :
    Spec.effective c' i j = Spec.effective c i j := by
  have hiff : Spec.effective c' i j = OpType.less_equal ↔
      Spec.effective c i j = OpType.less_equal := by
    simp only [Spec.effective_eq_less_equal_iff]
    constructor
    · intro h' k h1 h2
      rw [← h k h1 h2]
      exact h' k h1 h2
    · intro h' k h1 h2
      rw [h k h1 h2]
      exact h' k h1 h2
  cases h1 : Spec.effective c' i j <;> cases h2 : Spec.effective c i j
  · rfl
  · exact absurd (hiff.mpr h2) (by rw [h1]; decide)
  · exact absurd (hiff.mp h1) (by rw [h2]; decide)
  · rfl

theorem Spec.append_pair_holds_of_lt (f : Comparators α) (c : Node α) (OP : OpType) (v : α)
    (i j : Nat) (hij : i < j) (hj : j < c.size) :
    Spec.pair_holds f (Spec.append c OP v) i j = Spec.pair_holds f c i j := by
  unfold Spec.pair_holds
  rw [Spec.append_get_of_lt c OP v i (by omega), Spec.append_get_of_lt c OP v j hj,
    Spec.effective_congr c (Spec.append c OP v) i j
      (fun k _ h2 => Spec.append_op_of_lt c OP v k (by omega))]

theorem Spec.append_pair_holds_last (f : Comparators α) (c : Node α) (OP : OpType) (v : α)
    (i : Nat) (hi : i < c.size) :
    Spec.pair_holds f (Spec.append c OP v) i c.size =
      (match c.get i with
        | some x => Spec.compare f x v (Spec.effective (Spec.append c OP v) i c.size)
        | none => false) := by
  unfold Spec.pair_holds
  rw [Spec.append_get_of_lt c OP v i hi, Spec.append_get_last]
  cases c.get i <;> rfl

theorem Spec.append_evaluate (f : Comparators α) (c : Node α) (OP : OpType) (v : α) :
    Spec.evaluate f (Spec.append c OP v) =
      (Spec.evaluate f c && (List.range c.size).all fun i =>
        match c.get i with
        | some x => Spec.compare f x v (Spec.effective (Spec.append c OP v) i c.size)
        | none => false) := by
  rw [Bool.eq_iff_iff, Bool.and_eq_true, Spec.evaluate_iff, Spec.evaluate_iff, Spec.append_size]
  simp only [List.all_eq_true, List.mem_range]
  constructor
  · intro h
    constructor
    · intro i j hij hj
      rw [← Spec.append_pair_holds_of_lt f c OP v i j hij hj]
      exact h i j hij (by omega)
    · intro i hi
      rw [← Spec.append_pair_holds_last f c OP v i hi]
      exact h i c.size hi (by omega)
  · rintro ⟨h1, h2⟩ i j hij hj
    by_cases hjn : j = c.size
    · rw [hjn, Spec.append_pair_holds_last f c OP v i (by omega)]
      exact h2 i (by omega)
    · rw [Spec.append_pair_holds_of_lt f c OP v i j hij (by omega)]
      exact h1 i j hij (by omega)

theorem Spec.appends_true_prefix (f : Comparators α) (steps : List (OpType × α)) :
    ∀ c : Node α, (Spec.appends c steps).evaluate f 1 = some true →
      c.evaluate f 1 = some true := by
  induction steps with
  | nil =>
      intro c h
      exact h
  | cons step rest ih =>
      intro c h
      have h1 : (Spec.append c step.1 step.2).evaluate f 1 = some true := ih _ h
      rw [Node.evaluate_one_eq_evaluate, Spec.append_evaluate, Option.some.injEq,
        Bool.and_eq_true] at h1
      rw [Node.evaluate_one_eq_evaluate, h1.1]

/-- C15. Extension law: evaluating `append(c, OP, v)` gives `evaluate(c)` AND, for every
position `i` of `c`, `compare(v_i, v, effective'(i, n))` with `effective'` the effective
operator in the extended chain; so whenever an extended chain evaluates to `true`, every chain
it was extended from evaluates to `true` as well.  The chain `c` is evaluated by `evaluate<1>()`,
which is also its boolean conversion when it has at least two operands; the extended chain has
at least two. -/
theorem C15_extension_law (f : Comparators α) (c : Node α) (OP : OpType) (v : α) :
    (∃ b, c.evaluate f 1 = some b ∧
      (2 ≤ c.size → c.operator_bool f = some b) ∧
      (Spec.append c OP v).evaluate f 1 = (Spec.append c OP v).operator_bool f ∧
      (Spec.append c OP v).operator_bool f =
        some (b && (List.range c.size).all fun i =>
          match c.get i with
          | some x => Spec.compare f x v (Spec.effective (Spec.append c OP v) i c.size)
          | none => false)) ∧
      (∀ steps : List (OpType × α), (Spec.appends c steps).evaluate f 1 = some true →
        c.evaluate f 1 = some true) ∧
      (∀ steps : List (OpType × α), (Spec.appends c steps).operator_bool f = some true →
        c.evaluate f 1 = some true ∧ (2 ≤ c.size → c.operator_bool f = some true)) := by
  have hsz : 1 < (Spec.append c OP v).size := by
    rw [Spec.append_size]
    have := c.size_pos
    omega
  refine ⟨⟨Spec.evaluate f c, Node.evaluate_one_eq_evaluate f c, ?_, ?_, ?_⟩,
    fun steps => Spec.appends_true_prefix f steps c, ?_⟩
  · intro hn
    exact Node.operator_bool_eq_evaluate f c (by omega)
  · exact (Node.operator_bool_of_lt f _ hsz).symm
  · rw [Node.operator_bool_eq_evaluate f _ hsz, Spec.append_evaluate]
  · intro steps htrue
    have hlt := ((Node.operator_bool_eq_true_iff f _).mp htrue).1
    rw [Node.operator_bool_of_lt f _ hlt] at htrue
    have hc := Spec.appends_true_prefix f steps c htrue
    exact ⟨hc, fun hn => by rw [Node.operator_bool_of_lt f c (by omega), hc]⟩

/-! ## Weakening one operator -/

theorem Node.weaken_index (c : Node α) (k : Nat) : (c.weaken k).index = c.index := by
  induction c with
  | root elem => rfl
  | node parent opType elem ih =>
      simp only [Node.weaken]
      split
      · rfl
      · simp only [Node.index, ih]

theorem Node.weaken_size (c : Node α) (k : Nat) : (c.weaken k).size = c.size := by
  simp only [Node.size, Node.weaken_index]

theorem Node.weaken_get (c : Node α) (k m : Nat) : (c.weaken k).get m = c.get m := by
  induction c with
  | root elem => rfl
  | node parent opType elem ih =>
      simp only [Node.weaken]
      split
      · rfl
      · simp only [Node.get, Node.index, Node.weaken_index, ih]

theorem Node.weaken_op_of_ne (c : Node α) (k m : Nat) (hm : m ≠ k) :
    (c.weaken k).op m = c.op m := by
  induction c with
  | root elem => rfl
  | node parent opType elem ih =>
      simp only [Node.weaken]
      split
      · rename_i hk
        simp only [Node.op, Node.index] at hk ⊢
        rw [if_neg (by omega), if_neg (by omega)]
      · simp only [Node.op, Node.index, Node.weaken_index, ih]

theorem Node.weaken_op_self (c : Node α) (k : Nat) (h0 : 0 < k) (hk : k < c.size) :
    (c.weaken k).op k = some OpType.less_equal := by
  induction c with
  | root elem =>
      simp only [Node.size, Node.index] at hk
      omega
  | node parent opType elem ih =>
      simp only [Node.weaken]
      split
      · rename_i hk'
        simp only [Node.op]
        exact if_pos hk'
      · rename_i hk'
        simp only [Node.op, Node.index, Node.weaken_index] at hk' ⊢
        rw [if_neg hk']
        exact ih (by simp only [Node.size, Node.index] at hk ⊢; omega)

theorem Node.weaken_op_less_equal (c : Node α) (k m : Nat) (h0 : 0 < m) (hm : m < c.size)
    (h : c.op m = some OpType.less_equal) : (c.weaken k).op m = some OpType.less_equal := by
  by_cases hmk : m = k
  · rw [hmk] at h0 hm ⊢
    exact c.weaken_op_self k h0 hm
  · rw [c.weaken_op_of_ne k m hmk, h]

/-- C18. Weakening monotonicity: over a comparison in which `x < y` implies `x <= y`, replacing
the operator preceding any one position `k` by `<=` (operands unchanged) keeps a `true` chain
`true`. -/
theorem C18_weakening_monotone (f : Comparators α) (c : Node α) (k : Nat)
    (hmono : ∀ x y, f.less x y = true → f.less_equal x y = true)
    (htrue : c.operator_bool f = some true) :
    (c.weaken k).operator_bool f = some true ∧
      (c.weaken k).size = c.size ∧
      (∀ m, (c.weaken k).get m = c.get m) ∧
      (∀ m, m ≠ k → (c.weaken k).op m = c.op m) ∧
      (0 < k → k < c.size → (c.weaken k).op k = some OpType.less_equal) := by
  refine ⟨?_, c.weaken_size k, c.weaken_get k, c.weaken_op_of_ne k, c.weaken_op_self k⟩
  rw [Node.operator_bool_eq_true_iff] at htrue ⊢
  refine ⟨by rw [c.weaken_size k]; exact htrue.1, ?_⟩
  intro i j hij hj
  rw [c.weaken_size k] at hj
  have h := htrue.2 i j hij hj
  rw [Spec.pair_holds_iff] at h ⊢
  obtain ⟨x, y, hx, hy, hxy⟩ := h
  refine ⟨x, y, by rw [c.weaken_get, hx], by rw [c.weaken_get, hy], ?_⟩
  cases hE : Spec.effective c i j with
  | less_equal =>
      have : Spec.effective (c.weaken k) i j = OpType.less_equal := by
        rw [Spec.effective_eq_less_equal_iff] at hE ⊢
        intro m h1 h2
        exact c.weaken_op_less_equal k m (by omega) (by omega) (hE m h1 h2)
      rw [this]
      rw [hE] at hxy
      exact hxy
  | less =>
      rw [hE] at hxy
      cases Spec.effective (c.weaken k) i j with
      | less => exact hxy
      | less_equal => exact hmono x y hxy

/-- Witness of C18: `1 < 2 < 3` is `true`, and so is `1 <= 2 < 3`. -/
theorem C18_weakening_monotone_witness :
    (((Chain_root.operator_shl (1 : Int)).operator_lt 2).operator_lt 3).operator_bool
        intComparators = some true ∧
      ((((Chain_root.operator_shl (1 : Int)).operator_lt 2).operator_lt 3).weaken 1).operator_bool
        intComparators = some true :=
  have h : (((Chain_root.operator_shl (1 : Int)).operator_lt 2).operator_lt 3).operator_bool
      intComparators = some true := by
    simp [Node.operator_bool, Node.evaluate, Node.eval_for_dist, Node.compare,
      Node.check_all_less_equal, Node.op, Node.get, Node.size, Node.index, Node.operator_lt,
      Chain_root.operator_shl, intComparators]
  ⟨h, (C18_weakening_monotone intComparators _ 1
    (fun x y hxy => by
      simp only [intComparators, decide_eq_true_eq] at hxy ⊢
      omega) h).1⟩

/-! ## Composition of effective operators -/

theorem Node.check_all_less_equal_eq_effective (c : Node α) (L R : Nat) (hR : R < c.size) :
    c.check_all_less_equal L R = some (decide (Spec.effective c L R = OpType.less_equal)) := by
  obtain ⟨b, hb, hiff⟩ := c.check_all_less_equal_spec L R hR
  rw [← Spec.effective_eq_less_equal_iff] at hiff
  rw [hb, Option.some.injEq, Bool.eq_iff_iff, hiff, decide_eq_true_eq]

theorem Spec.effective_compose (c : Node α) (i j k : Nat) (hij : i ≤ j) (hjk : j ≤ k) :
    Spec.effective c i k = OpType.less_equal ↔
      Spec.effective c i j = OpType.less_equal ∧ Spec.effective c j k = OpType.less_equal := by
  simp only [Spec.effective_eq_less_equal_iff]
  constructor
  · intro h
    exact ⟨fun m h1 h2 => h m h1 (by omega), fun m h1 h2 => h m (by omega) h2⟩
  · rintro ⟨h1, h2⟩ m hm1 hm2
    by_cases hm : m ≤ j
    · exact h1 m hm1 hm
    · exact h2 m (by omega) hm2

/-- C19. Effective operators compose: for positions `i < j < k` of a chain,
`check_all_less_equal<i,k>()` is `check_all_less_equal<i,j>() && check_all_less_equal<j,k>()`,
that is `effective(i,k)` is `LESS_OR_EQUAL` iff both `effective(i,j)` and `effective(j,k)` are;
and for an adjacent pair `effective(m, m+1)` is exactly the operator recorded between
positions `m` and `m + 1`. -/
theorem C19_effective_compose (c : Node α) (i j k : Nat)
    (hij : i < j) (hjk : j < k) (hk : k < c.size) :
    (∃ b1 b2 b3, c.check_all_less_equal i k = some b1 ∧
        c.check_all_less_equal i j = some b2 ∧
        c.check_all_less_equal j k = some b3 ∧ b1 = (b2 && b3)) ∧
      (Spec.effective c i k = OpType.less_equal ↔
        Spec.effective c i j = OpType.less_equal ∧ Spec.effective c j k = OpType.less_equal) ∧
      (∀ m, m + 1 < c.size → ∃ o, c.op (m + 1) = some o ∧ Spec.operator_at c m = some o ∧
        Spec.effective c m (m + 1) = o ∧
        c.check_all_less_equal m (m + 1) = some (decide (o = OpType.less_equal))) := by
  have hcomp := Spec.effective_compose c i j k (Nat.le_of_lt hij) (Nat.le_of_lt hjk)
  refine ⟨⟨_, _, _, c.check_all_less_equal_eq_effective i k hk,
    c.check_all_less_equal_eq_effective i j (by omega),
    c.check_all_less_equal_eq_effective j k hk, ?_⟩, hcomp, ?_⟩
  · rw [Bool.eq_iff_iff, Bool.and_eq_true, decide_eq_true_eq, decide_eq_true_eq,
      decide_eq_true_eq]
    exact hcomp
  · intro m hm
    obtain ⟨o, ho⟩ := c.op_of_lt (m + 1) (Nat.succ_pos _) hm
    have he := Spec.effective_adjacent c m o ho
    refine ⟨o, ho, ho, he, ?_⟩
    rw [c.check_all_less_equal_eq_effective m (m + 1) hm, he]

/-- Witness of C19 on the chain `1 < 2 <= 2 < 5`, positions `0 < 1 < 3`. -/
theorem C19_effective_compose_witness :
    (∃ b1 b2 b3,
        ((((Chain_root.operator_shl (1 : Int)).operator_lt 2).operator_le 2).operator_lt
          5).check_all_less_equal 0 3 = some b1 ∧
        ((((Chain_root.operator_shl (1 : Int)).operator_lt 2).operator_le 2).operator_lt
          5).check_all_less_equal 0 1 = some b2 ∧
        ((((Chain_root.operator_shl (1 : Int)).operator_lt 2).operator_le 2).operator_lt
          5).check_all_less_equal 1 3 = some b3 ∧ b1 = (b2 && b3)) :=
  (C19_effective_compose
    ((((Chain_root.operator_shl (1 : Int)).operator_lt 2).operator_le 2).operator_lt 5) 0 1 3
    (by decide) (by decide) (by decide)).1

/-! ## The pairs compared by the evaluator -/

theorem Node.eval_for_dist_traced_aux (f : Comparators α) (c : Node α) (D : Nat) :
    ∀ n L, c.size - (L + D) = n →
      (c.eval_for_dist_traced f L D).1 = c.eval_for_dist f L D ∧
      (∀ p ∈ (c.eval_for_dist_traced f L D).2, p.2 = p.1 + D ∧ L ≤ p.1 ∧ p.1 + D < c.size) ∧
      List.Pairwise (fun p q => p.1 < q.1) (c.eval_for_dist_traced f L D).2 ∧
      (c.eval_for_dist_traced f L D).2.length ≤ n ∧
      ((c.eval_for_dist_traced f L D).1 = some true →
        (∀ i, L ≤ i → i + D < c.size → (i, i + D) ∈ (c.eval_for_dist_traced f L D).2) ∧
        (c.eval_for_dist_traced f L D).2.length = n) := by
  intro n
  induction n with
  | zero =>
      intro L hL
      rw [Node.eval_for_dist_traced, Node.eval_for_dist]
      rw [if_neg (by omega), if_neg (by omega)]
      refine ⟨rfl, ?_, List.Pairwise.nil, Nat.le_refl _, fun _ => ⟨?_, rfl⟩⟩
      · intro p hp
        cases hp
      · intro i h1 h2
        omega
  | succ n ih =>
      intro L hL
      have hlt : L + D < c.size := by omega
      obtain ⟨ih1, ih2, ih3, ih4, ih5⟩ := ih (L + 1) (by omega)
      rw [Node.eval_for_dist_traced, Node.eval_for_dist]
      rw [if_pos hlt, if_pos hlt]
      cases hcmp : c.compare f L (L + D) with
      | none =>
          refine ⟨rfl, ?_, List.pairwise_singleton _ _, by simp, fun h => by cases h⟩
          intro p hp
          rw [List.mem_singleton] at hp
          rw [hp]
          exact ⟨rfl, Nat.le_refl _, hlt⟩
      | some b =>
          cases b with
          | false =>
              refine ⟨rfl, ?_, List.pairwise_singleton _ _, by simp, fun h => by cases h⟩
              intro p hp
              rw [List.mem_singleton] at hp
              rw [hp]
              exact ⟨rfl, Nat.le_refl _, hlt⟩
          | true =>
              refine ⟨ih1, ?_, ?_, ?_, ?_⟩
              · intro p hp
                rcases List.mem_cons.mp hp with h | h
                · rw [h]
                  exact ⟨rfl, Nat.le_refl _, hlt⟩
                · obtain ⟨h1, h2, h3⟩ := ih2 p h
                  exact ⟨h1, by omega, h3⟩
              · refine List.pairwise_cons.mpr ⟨?_, ih3⟩
                intro q hq
                have := (ih2 q hq).2.1
                show L < q.1
                omega
              · show (c.eval_for_dist_traced f (L + 1) D).2.length + 1 ≤ n + 1
                omega
              · intro htrue
                obtain ⟨h5, h6⟩ := ih5 htrue
                refine ⟨?_, ?_⟩
                · intro i hi1 hi2
                  by_cases hi : i = L
                  · rw [hi]
                    exact List.mem_cons_self _ _
                  · exact List.mem_cons_of_mem _ (h5 i (by omega) hi2)
                · show (c.eval_for_dist_traced f (L + 1) D).2.length + 1 = n + 1
                  omega

theorem Node.evaluate_traced_aux (f : Comparators α) (c : Node α) :
    ∀ n D, c.size - D = n →
      (c.evaluate_traced f D).1 = c.evaluate f D ∧
      (∀ p ∈ (c.evaluate_traced f D).2, p.1 + D ≤ p.2 ∧ p.2 < c.size) ∧
      List.Pairwise Spec.visited_before (c.evaluate_traced f D).2 ∧
      2 * (c.evaluate_traced f D).2.length ≤ n * (n + 1) ∧
      ((c.evaluate_traced f D).1 = some true →
        (∀ i j, i + D ≤ j → j < c.size → (i, j) ∈ (c.evaluate_traced f D).2) ∧
        2 * (c.evaluate_traced f D).2.length = n * (n + 1)) := by
  intro n
  induction n with
  | zero =>
      intro D hD
      rw [Node.evaluate_traced, Node.evaluate]
      rw [if_neg (by omega), if_neg (by omega)]
      refine ⟨rfl, ?_, List.Pairwise.nil, Nat.le_refl _, fun _ => ⟨?_, rfl⟩⟩
      · intro p hp
        cases hp
      · intro i j h1 h2
        omega
  | succ n ih =>
      intro D hD
      have hlt : D < c.size := by omega
      obtain ⟨a1, a2, a3, a4, a5⟩ := c.eval_for_dist_traced_aux f D (n + 1) 0 (by omega)
      obtain ⟨ih1, ih2, ih3, ih4, ih5⟩ := ih (D + 1) (by omega)
      have hmem : ∀ p ∈ (c.eval_for_dist_traced f 0 D).2, p.1 + D ≤ p.2 ∧ p.2 < c.size := by
        intro p hp
        obtain ⟨h1, _, h3⟩ := a2 p hp
        omega
      have hpw : List.Pairwise Spec.visited_before (c.eval_for_dist_traced f 0 D).2 := by
        refine List.Pairwise.imp_of_mem ?_ a3
        intro p q hp hq hpq
        have h1 := (a2 p hp).1
        have h2 := (a2 q hq).1
        exact Or.inr ⟨by omega, hpq⟩
      have hring : (n + 1) * (n + 1 + 1) = n * (n + 1) + 2 * (n + 1) := by ring
      rw [Node.evaluate_traced, Node.evaluate]
      rw [if_pos hlt, if_pos hlt, ← a1]
      cases hres : (c.eval_for_dist_traced f 0 D).1 with
      | none =>
          refine ⟨rfl, hmem, hpw, ?_, fun h => by cases h⟩
          show 2 * (c.eval_for_dist_traced f 0 D).2.length ≤ (n + 1) * (n + 1 + 1)
          rw [hring]
          omega
      | some b =>
          cases b with
          | false =>
              refine ⟨rfl, hmem, hpw, ?_, fun h => by cases h⟩
              show 2 * (c.eval_for_dist_traced f 0 D).2.length ≤ (n + 1) * (n + 1 + 1)
              rw [hring]
              omega
          | true =>
              obtain ⟨a6, a7⟩ := a5 hres
              refine ⟨ih1, ?_, ?_, ?_, ?_⟩
              · intro p hp
                rcases List.mem_append.mp hp with h | h
                · exact hmem p h
                · have := ih2 p h
                  omega
              · refine List.pairwise_append.mpr ⟨hpw, ih3, ?_⟩
                intro p hp q hq
                have h1 := (a2 p hp).1
                have h2 := (ih2 q hq).1
                exact Or.inl (by omega)
              · show 2 * ((c.eval_for_dist_traced f 0 D).2 ++
                    (c.evaluate_traced f (D + 1)).2).length ≤ (n + 1) * (n + 1 + 1)
                rw [List.length_append, hring]
                omega
              · intro htrue
                obtain ⟨h5, h6⟩ := ih5 htrue
                refine ⟨?_, ?_⟩
                · intro i j hij hj
                  by_cases hd : j = i + D
                  · rw [hd]
                    exact List.mem_append_left _ (a6 i (Nat.zero_le _) (by omega))
                  · exact List.mem_append_right _ (h5 i j (by omega) hj)
                · show 2 * ((c.eval_for_dist_traced f 0 D).2 ++
                      (c.evaluate_traced f (D + 1)).2).length = (n + 1) * (n + 1 + 1)
                  rw [List.length_append, hring]
                  omega

theorem Spec.count_eq_one_of_nodup (l : List (Nat × Nat)) (a : Nat × Nat)
    (hn : l.Nodup) (h : a ∈ l) : List.count a l = 1 := by
  have hpos : 0 < List.count a l := List.count_pos_iff.mpr h
  have hle : ∀ t : List (Nat × Nat), t.Nodup → List.count a t ≤ 1 := by
    intro t
    induction t with
    | nil =>
        intro _
        simp
    | cons b t ih =>
        intro hn
        rw [List.nodup_cons] at hn
        rw [List.count_cons]
        by_cases hb : b = a
        · have : List.count a t = 0 := List.count_eq_zero.mpr (hb ▸ hn.1)
          simp [hb, this]
        · have := ih hn.2
          simp [hb, this]
  have := hle l hn
  omega

theorem Spec.visited_before_ne (p q : Nat × Nat) (h : Spec.visited_before p q) : p ≠ q := by
  intro heq
  rw [heq] at h
  rcases h with h | h
  · exact Nat.lt_irrefl _ h
  · exact Nat.lt_irrefl _ h.2

/-- C17. Termination and pair coverage: for every chain of size `n`, `evaluate<1>()` returns a
boolean (and it is what the boolean conversion runs when `n ≥ 2`); it compares at most
`n(n-1)/2` pairs, only pairs `(i, j)` with `i < j < n`, none of them twice, by increasing
distance `j - i` and within one distance by increasing `i`; and when the chain is `true` it
compares each pair `i < j` exactly once, `n(n-1)/2` comparisons in all. -/
theorem C17_termination_and_pair_coverage (f : Comparators α) (c : Node α) :
    (c.evaluate_traced f 1).1 = c.evaluate f 1 ∧
      (∃ b, c.evaluate f 1 = some b) ∧
      (2 ≤ c.size → c.operator_bool_traced f = c.evaluate_traced f 1 ∧
        c.operator_bool f = c.evaluate f 1) ∧
      (c.evaluate_traced f 1).2.length ≤ c.size * (c.size - 1) / 2 ∧
      (∀ p ∈ (c.evaluate_traced f 1).2, p.1 < p.2 ∧ p.2 < c.size) ∧
      (c.evaluate_traced f 1).2.Nodup ∧
      List.Pairwise Spec.visited_before (c.evaluate_traced f 1).2 ∧
      (c.evaluate f 1 = some true →
        (∀ i j, i < j → j < c.size → List.count (i, j) (c.evaluate_traced f 1).2 = 1) ∧
        (c.evaluate_traced f 1).2.length = c.size * (c.size - 1) / 2) := by
  obtain ⟨h1, h2, h3, h4, h5⟩ := c.evaluate_traced_aux f (c.size - 1) 1 rfl
  obtain ⟨b, hb, _⟩ := c.evaluate_one_spec f
  have hcomm : c.size * (c.size - 1) = (c.size - 1) * (c.size - 1 + 1) := by
    rw [Nat.sub_add_cancel c.size_pos, Nat.mul_comm]
  have hnodup : (c.evaluate_traced f 1).2.Nodup :=
    List.Pairwise.imp (fun h => Spec.visited_before_ne _ _ h) h3
  refine ⟨h1, ⟨b, hb⟩, ?_, ?_, ?_, hnodup, h3, ?_⟩
  · intro hn
    exact ⟨if_pos (by omega), if_pos (by omega)⟩
  · rw [Nat.le_div_iff_mul_le (by decide), hcomm]
    omega
  · intro p hp
    have := h2 p hp
    omega
  · intro htrue
    have htrue2 : (c.evaluate_traced f 1).1 = some true := by
      rw [h1]
      exact htrue
    obtain ⟨h6, h7⟩ := h5 htrue2
    refine ⟨?_, ?_⟩
    · intro i j hij hj
      exact Spec.count_eq_one_of_nodup _ _ hnodup (h6 i j (by omega) hj)
    · rw [hcomm]
      omega

/-! ## The indexed accesses of the evaluator -/

theorem Node.check_all_less_equal_logged_aux (c : Node α) (R : Nat) :
    ∀ n L, R - L = n →
      (c.check_all_less_equal_logged L R).1 = c.check_all_less_equal L R ∧
      (∀ a, a ∈ (c.check_all_less_equal_logged L R).2 ↔
        ∃ k, L < k ∧ k ≤ R ∧ a = Access.op k) := by
  intro n
  induction n with
  | zero =>
      intro L hL
      rw [Node.check_all_less_equal_logged, Node.check_all_less_equal]
      rw [if_neg (by omega), if_neg (by omega)]
      refine ⟨rfl, fun a => ⟨fun h => (by cases h), ?_⟩⟩
      rintro ⟨k, h1, h2, _⟩
      omega
  | succ n ih =>
      intro L hL
      have hlt : L < R := by omega
      obtain ⟨ih1, ih2⟩ := ih (L + 1) (by omega)
      have hmem : ∀ a, a ∈ Access.op (L + 1) :: (c.check_all_less_equal_logged (L + 1) R).2 ↔
          ∃ k, L < k ∧ k ≤ R ∧ a = Access.op k := by
        intro a
        rw [List.mem_cons, ih2]
        constructor
        · rintro (h | ⟨k, h1, h2, h3⟩)
          · exact ⟨L + 1, by omega, by omega, h⟩
          · exact ⟨k, by omega, h2, h3⟩
        · rintro ⟨k, h1, h2, h3⟩
          by_cases hk : k = L + 1
          · left
            rw [h3, hk]
          · right
            exact ⟨k, by omega, h2, h3⟩
      rw [Node.check_all_less_equal_logged, Node.check_all_less_equal]
      rw [if_pos hlt, if_pos hlt]
      refine ⟨?_, hmem⟩
      cases c.op (L + 1) with
      | none => rfl
      | some o =>
          cases o with
          | less_equal => exact ih1
          | less => rfl

theorem Node.compare_logged_spec (f : Comparators α) (c : Node α) (L R : Nat) :
    (c.compare_logged f L R).1 = c.compare f L R ∧
      (∀ a, a ∈ (c.compare_logged f L R).2 ↔
        (a = Access.get L ∨ a = Access.get R ∨ ∃ k, L < k ∧ k ≤ R ∧ a = Access.op k)) := by
  obtain ⟨h1, h2⟩ := c.check_all_less_equal_logged_aux R (R - L) L rfl
  refine ⟨?_, ?_⟩
  · unfold Node.compare_logged Node.compare
    rw [← h1]
  · intro a
    unfold Node.compare_logged
    simp only [List.mem_append, h2, List.mem_cons, List.mem_singleton, List.not_mem_nil,
      or_false]
    constructor
    · rintro (h | h | h | h | h)
      · exact Or.inr (Or.inr h)
      · exact Or.inl h
      · exact Or.inr (Or.inl h)
      · exact Or.inl h
      · exact Or.inr (Or.inl h)
    · rintro (h | h | h)
      · exact Or.inr (Or.inl h)
      · exact Or.inr (Or.inr (Or.inl h))
      · exact Or.inl h

theorem Node.eval_for_dist_logged_aux (f : Comparators α) (c : Node α) (D : Nat) :
    ∀ n L, c.size - (L + D) = n →
      (c.eval_for_dist_logged f L D).1 = c.eval_for_dist f L D ∧
      (∀ a, a ∈ (c.eval_for_dist_logged f L D).2 ↔
        ∃ i, L ≤ i ∧ i + D < c.size ∧ a ∈ (c.compare_logged f i (i + D)).2) := by
  intro n
  induction n with
  | zero =>
      intro L hL
      rw [Node.eval_for_dist_logged, Node.eval_for_dist]
      rw [if_neg (by omega), if_neg (by omega)]
      refine ⟨rfl, fun a => ⟨fun h => (by cases h), ?_⟩⟩
      rintro ⟨i, h1, h2, _⟩
      omega
  | succ n ih =>
      intro L hL
      have hlt : L + D < c.size := by omega
      obtain ⟨ih1, ih2⟩ := ih (L + 1) (by omega)
      have c1 := (c.compare_logged_spec f L (L + D)).1
      have hmem : ∀ a, a ∈ (c.compare_logged f L (L + D)).2 ++
            (c.eval_for_dist_logged f (L + 1) D).2 ↔
          ∃ i, L ≤ i ∧ i + D < c.size ∧ a ∈ (c.compare_logged f i (i + D)).2 := by
        intro a
        rw [List.mem_append, ih2]
        constructor
        · rintro (h | ⟨i, h1, h2, h3⟩)
          · exact ⟨L, Nat.le_refl _, hlt, h⟩
          · exact ⟨i, by omega, h2, h3⟩
        · rintro ⟨i, h1, h2, h3⟩
          by_cases hi : i = L
          · left
            rw [hi] at h3
            exact h3
          · right
            exact ⟨i, by omega, h2, h3⟩
      rw [Node.eval_for_dist_logged, Node.eval_for_dist]
      rw [if_pos hlt, if_pos hlt]
      refine ⟨?_, hmem⟩
      show (match (c.compare_logged f L (L + D)).1 with
        | none => none
        | some false => some false
        | some true => (c.eval_for_dist_logged f (L + 1) D).1) = _
      rw [c1, ih1]

theorem Node.evaluate_logged_aux (f : Comparators α) (c : Node α) :
    ∀ n D, c.size - D = n →
      (c.evaluate_logged f D).1 = c.evaluate f D ∧
      (∀ a, a ∈ (c.evaluate_logged f D).2 ↔
        ∃ d i, D ≤ d ∧ i + d < c.size ∧ a ∈ (c.compare_logged f i (i + d)).2) := by
  intro n
  induction n with
  | zero =>
      intro D hD
      rw [Node.evaluate_logged, Node.evaluate]
      rw [if_neg (by omega), if_neg (by omega)]
      refine ⟨rfl, fun a => ⟨fun h => (by cases h), ?_⟩⟩
      rintro ⟨d, i, h1, h2, _⟩
      omega
  | succ n ih =>
      intro D hD
      have hlt : D < c.size := by omega
      obtain ⟨ih1, ih2⟩ := ih (D + 1) (by omega)
      obtain ⟨e1, e2⟩ := c.eval_for_dist_logged_aux f D (c.size - (0 + D)) 0 rfl
      have hmem : ∀ a, a ∈ (c.eval_for_dist_logged f 0 D).2 ++ (c.evaluate_logged f (D + 1)).2 ↔
          ∃ d i, D ≤ d ∧ i + d < c.size ∧ a ∈ (c.compare_logged f i (i + d)).2 := by
        intro a
        rw [List.mem_append, ih2, e2]
        constructor
        · rintro (⟨i, _, h2, h3⟩ | ⟨d, i, h1, h2, h3⟩)
          · exact ⟨D, i, Nat.le_refl _, h2, h3⟩
          · exact ⟨d, i, by omega, h2, h3⟩
        · rintro ⟨d, i, h1, h2, h3⟩
          by_cases hd : d = D
          · left
            rw [hd] at h2 h3
            exact ⟨i, Nat.zero_le _, h2, h3⟩
          · right
            exact ⟨d, i, by omega, h2, h3⟩
      rw [Node.evaluate_logged, Node.evaluate]
      rw [if_pos hlt, if_pos hlt]
      refine ⟨?_, hmem⟩
      show (match (c.eval_for_dist_logged f 0 D).1 with
        | none => none
        | some false => some false
        | some true => (c.evaluate_logged f (D + 1)).1) = _
      rw [e1, ih1]

theorem Node.operator_bool_logged_mem (f : Comparators α) (c : Node α) (hn : 1 < c.size)
    (a : Access) :
    a ∈ (c.operator_bool_logged f).2 ↔
      ∃ i j, i < j ∧ j < c.size ∧
        (a = Access.get i ∨ a = Access.get j ∨ ∃ k, i < k ∧ k ≤ j ∧ a = Access.op k) := by
  unfold Node.operator_bool_logged
  rw [if_pos hn, (c.evaluate_logged_aux f (c.size - 1) 1 rfl).2]
  constructor
  · rintro ⟨d, i, h1, h2, h3⟩
    exact ⟨i, i + d, by omega, h2, ((c.compare_logged_spec f i (i + d)).2 a).mp h3⟩
  · rintro ⟨i, j, h1, h2, h3⟩
    refine ⟨j - i, i, by omega, by omega, ?_⟩
    rw [show i + (j - i) = j by omega]
    exact ((c.compare_logged_spec f i j).2 a).mpr h3

/-- C20. Index safety of evaluation: on a chain of size `n ≥ 2` the boolean conversion returns a
boolean, and the accesses named by the members it instantiates are exactly `get<i>()`, `get<j>()`
and `op<k>()`, `i < k ≤ j`, for the pairs `i < j < n`, whatever the operators and the operands
are.  So every `get<k>()` has `0 ≤ k ≤ n - 1` and every `op<k>()` has `1 ≤ k ≤ n - 1` (position
0 is never queried for an operator), each such access is defined, and each index of these
ranges is accessed. -/
theorem C20_index_safety (f : Comparators α) (c : Node α) (hn : 2 ≤ c.size) :
    (c.operator_bool_logged f).1 = c.operator_bool f ∧
      (∃ b, c.operator_bool f = some b) ∧
      (∀ a, a ∈ (c.operator_bool_logged f).2 ↔
        ∃ i j, i < j ∧ j < c.size ∧
          (a = Access.get i ∨ a = Access.get j ∨ ∃ k, i < k ∧ k ≤ j ∧ a = Access.op k)) ∧
      (∀ a ∈ (c.operator_bool_logged f).2,
        match a with
        | Access.get k => k ≤ c.size - 1 ∧ (c.get k).isSome = true
        | Access.op k => 1 ≤ k ∧ k ≤ c.size - 1 ∧ (c.op k).isSome = true) ∧
      (∀ a ∈ (c.operator_bool_logged f).2, a ≠ Access.op 0) ∧
      (∀ k, k < c.size → Access.get k ∈ (c.operator_bool_logged f).2) ∧
      (∀ k, 1 ≤ k → k < c.size → Access.op k ∈ (c.operator_bool_logged f).2) := by
  have hlt : 1 < c.size := by omega
  obtain ⟨b, hb, _⟩ := c.operator_bool_spec f hlt
  have hmem := c.operator_bool_logged_mem f hlt
  refine ⟨?_, ⟨b, hb⟩, hmem, ?_, ?_, ?_, ?_⟩
  · unfold Node.operator_bool_logged Node.operator_bool
    rw [if_pos hlt, if_pos hlt]
    exact (c.evaluate_logged_aux f (c.size - 1) 1 rfl).1
  · intro a ha
    obtain ⟨i, j, hij, hj, h | h | ⟨k, hk1, hk2, h⟩⟩ := (hmem a).mp ha
    · rw [h]
      obtain ⟨x, hx⟩ := c.get_of_lt i (by omega)
      exact ⟨by omega, by rw [hx]; rfl⟩
    · rw [h]
      obtain ⟨x, hx⟩ := c.get_of_lt j hj
      exact ⟨by omega, by rw [hx]; rfl⟩
    · rw [h]
      obtain ⟨o, ho⟩ := c.op_of_lt k (by omega) (by omega)
      exact ⟨by omega, by omega, by rw [ho]; rfl⟩
  · intro a ha heq
    obtain ⟨i, j, hij, hj, h | h | ⟨k, hk1, hk2, h⟩⟩ := (hmem a).mp ha
    · rw [heq] at h
      cases h
    · rw [heq] at h
      cases h
    · rw [heq] at h
      cases h
      omega
  · intro k hk
    by_cases hk0 : k = 0
    · exact (hmem _).mpr ⟨0, 1, by decide, by omega, Or.inl (by rw [hk0])⟩
    · exact (hmem _).mpr ⟨k - 1, k, by omega, hk, Or.inr (Or.inl rfl)⟩
  · intro k hk1 hk
    exact (hmem _).mpr ⟨k - 1, k, by omega, hk, Or.inr (Or.inr ⟨k, by omega, Nat.le_refl _, rfl⟩)⟩

/-- Witness of C20 on the chain `1 < 2 <= 2`: `check_all_less_equal<0, 2>()` names `op<1>()` and
`op<2>()` although the operator found first is `std::less<>`, `op<2>()` is among the accesses
of the conversion, and `op<0>()` is not. -/
theorem C20_index_safety_witness :
    2 ≤ (((Chain_root.operator_shl (1 : Int)).operator_lt 2).operator_le 2).size ∧
      (((Chain_root.operator_shl (1 : Int)).operator_lt 2).operator_le 2).check_all_less_equal_logged
          0 2 = (some false, [Access.op 1, Access.op 2]) ∧
      Access.op 2 ∈ ((((Chain_root.operator_shl (1 : Int)).operator_lt 2).operator_le
        2).operator_bool_logged intComparators).2 ∧
      ∀ a ∈ ((((Chain_root.operator_shl (1 : Int)).operator_lt 2).operator_le
        2).operator_bool_logged intComparators).2, a ≠ Access.op 0 :=
  ⟨by decide,
    by simp [Node.check_all_less_equal_logged, Node.op, Node.index, Node.operator_lt,
      Node.operator_le, Chain_root.operator_shl],
    (C20_index_safety intComparators
      (((Chain_root.operator_shl (1 : Int)).operator_lt 2).operator_le 2)
      (by decide)).2.2.2.2.2.2 2 (by decide) (by decide),
    (C20_index_safety intComparators
      (((Chain_root.operator_shl (1 : Int)).operator_lt 2).operator_le 2)
      (by decide)).2.2.2.2.1⟩

/-! ## The prototype and the primary evaluator on strict chains -/

theorem Spec.strict_chain_invariant (vs : List α) :
    ∀ (c : Node α) (l : List α),
      (c.size = l.length ∧ (∀ k, c.get k = l[k]?) ∧
        (∀ k o, c.op k = some o → o = OpType.less)) →
      ((vs.foldl Node.operator_lt c).size = (l ++ vs).length ∧
        (∀ k, (vs.foldl Node.operator_lt c).get k = (l ++ vs)[k]?) ∧
        (∀ k o, (vs.foldl Node.operator_lt c).op k = some o → o = OpType.less)) := by
  induction vs with
  | nil =>
      intro c l h
      simpa using h
  | cons v rest ih =>
      intro c l h
      obtain ⟨h1, h2, h3⟩ := h
      have hidx : (Node.node c OpType.less v).index = l.length := by
        simp only [Node.index]
        simp only [Node.size] at h1
        exact h1
      have hstep : (c.operator_lt v).size = (l ++ [v]).length ∧
          (∀ k, (c.operator_lt v).get k = (l ++ [v])[k]?) ∧
          (∀ k o, (c.operator_lt v).op k = some o → o = OpType.less) := by
        refine ⟨?_, ?_, ?_⟩
        · simp only [Node.operator_lt, Node.size, Node.index, List.length_append,
            List.length_singleton]
          simp only [Node.size] at h1
          omega
        · intro k
          simp only [Node.operator_lt, Node.get]
          rw [hidx]
          by_cases hk : k = l.length
          · rw [if_pos hk, hk, List.getElem?_concat_length]
          · rw [if_neg hk, h2 k]
            by_cases hlt : k < l.length
            · rw [List.getElem?_append_left hlt]
            · rw [List.getElem?_eq_none (by omega), List.getElem?_eq_none]
              simp only [List.length_append, List.length_singleton]
              omega
        · intro k o hk
          simp only [Node.operator_lt, Node.op] at hk
          split at hk
          · exact (Option.some.inj hk).symm
          · exact h3 k o hk
      have := ih (c.operator_lt v) (l ++ [v]) hstep
      simpa [List.foldl_cons, List.append_assoc] using this

theorem Spec.strict_chain_facts (v0 : α) (vs : List α) :
    (Spec.strict_chain v0 vs).size = (v0 :: vs).length ∧
      (∀ k, (Spec.strict_chain v0 vs).get k = (v0 :: vs)[k]?) ∧
      (∀ k o, (Spec.strict_chain v0 vs).op k = some o → o = OpType.less) := by
  have hroot : (Chain_root.operator_shl v0).size = [v0].length ∧
      (∀ k, (Chain_root.operator_shl v0).get k = [v0][k]?) ∧
      (∀ k o, (Chain_root.operator_shl v0).op k = some o → o = OpType.less) := by
    refine ⟨rfl, ?_, ?_⟩
    · intro k
      simp only [Chain_root.operator_shl, Node.get]
      cases k with
      | zero => rfl
      | succ k => simp
    · intro k o hk
      cases hk
  have := Spec.strict_chain_invariant vs (Chain_root.operator_shl v0) [v0] hroot
  simpa [Spec.strict_chain] using this

theorem Spec.strict_chain_true_iff (f : Comparators α) (v0 : α) (vs : List α) :
    (Spec.strict_chain v0 vs).evaluate f 1 = some true ↔
      ∀ i j, i < j → j < (v0 :: vs).length →
        ∀ x y, (v0 :: vs)[i]? = some x → (v0 :: vs)[j]? = some y → f.less x y = true := by
  obtain ⟨h1, h2, h3⟩ := Spec.strict_chain_facts v0 vs
  have heff : ∀ i j, i < j → j < (Spec.strict_chain v0 vs).size →
      Spec.effective (Spec.strict_chain v0 vs) i j = OpType.less := by
    intro i j hij hj
    cases hE : Spec.effective (Spec.strict_chain v0 vs) i j with
    | less => rfl
    | less_equal =>
        rw [Spec.effective_eq_less_equal_iff] at hE
        have := h3 (i + 1) _ (hE (i + 1) (by omega) (by omega))
        cases this
  rw [Node.evaluate_one_eq_true_iff, h1]
  constructor
  · intro h i j hij hj x y hx hy
    have hp := h i j hij hj
    rw [Spec.pair_holds_iff, h2 i, h2 j, heff i j hij (by rw [h1]; exact hj)] at hp
    obtain ⟨x', y', hx', hy', hxy⟩ := hp
    rw [hx] at hx'
    rw [hy] at hy'
    cases Option.some.inj hx'
    cases Option.some.inj hy'
    exact hxy
  · intro h i j hij hj
    rw [Spec.pair_holds_iff, h2 i, h2 j, heff i j hij (by rw [h1]; exact hj)]
    obtain ⟨x, hx⟩ : ∃ x, (v0 :: vs)[i]? = some x :=
      ⟨_, List.getElem?_eq_getElem (by omega)⟩
    obtain ⟨y, hy⟩ : ∃ y, (v0 :: vs)[j]? = some y :=
      ⟨_, List.getElem?_eq_getElem hj⟩
    exact ⟨x, y, hx, hy, h i j hij hj x y hx hy⟩

theorem Implement.comparison_end (f : Comparators α) (T : List (Reserve α)) (O E : Nat)
    (hOE : O ≠ E) (a b : Reserve α) (ha : T[O]? = some a) (hb : T[E]? = some b)
    (hop : b.oper_type = Operation.LowerThan) :
    Implement.comparison f T O E E =
      (if f.less a.rhs_ b.rhs_ = true then Implement.comparison f T (O + 1) (O + 2) E
       else some false) := by
  rw [Implement.comparison]
  rw [if_neg hOE, if_pos rfl]
  split
  · rename_i first second h1 h2
    rw [ha] at h1
    rw [hb] at h2
    cases Option.some.inj h1
    cases Option.some.inj h2
    simp only [compare, hop]
    cases f.less a.rhs_ b.rhs_ <;> simp
  · rename_i hnone
    exact absurd hb (hnone a b ha)

theorem Implement.comparison_inner (f : Comparators α) (T : List (Reserve α)) (O I E : Nat)
    (hOE : O ≠ E) (hIE : I ≠ E) (a b : Reserve α) (ha : T[O]? = some a) (hb : T[I]? = some b)
    (hop : b.oper_type = Operation.LowerThan) :
    Implement.comparison f T O I E =
      (if f.less a.rhs_ b.rhs_ = true then Implement.comparison f T O (I + 1) E
       else some false) := by
  rw [Implement.comparison]
  rw [if_neg hOE, if_neg hIE]
  split
  · rename_i first second h1 h2
    rw [ha] at h1
    rw [hb] at h2
    cases Option.some.inj h1
    cases Option.some.inj h2
    simp only [compare, hop]
    cases f.less a.rhs_ b.rhs_ <;> simp
  · rename_i hnone
    exact absurd hb (hnone a b ha)

theorem Implement.comparison_row (f : Comparators α) (T : List (Reserve α)) (E : Nat)
    (hE : E < T.length)
    (hop : ∀ k r, 0 < k → T[k]? = some r → r.oper_type = Operation.LowerThan) :
    ∀ m O I, E - I = m → O < I → I ≤ E →
      ((∀ j, I ≤ j → j ≤ E → ∀ a b, T[O]? = some a → T[j]? = some b →
          f.less a.rhs_ b.rhs_ = true) →
        Implement.comparison f T O I E = Implement.comparison f T (O + 1) (O + 2) E) ∧
      (¬ (∀ j, I ≤ j → j ≤ E → ∀ a b, T[O]? = some a → T[j]? = some b →
          f.less a.rhs_ b.rhs_ = true) →
        Implement.comparison f T O I E = some false) := by
  intro m
  induction m with
  | zero =>
      intro O I hm hOI hIE
      have hIeq : I = E := by omega
      subst hIeq
      have ha : T[O]? = some (T.get ⟨O, by omega⟩) := List.getElem?_eq_getElem (by omega)
      have hb : T[I]? = some (T.get ⟨I, hE⟩) := List.getElem?_eq_getElem hE
      have hopb := hop I _ (by omega) hb
      rw [Implement.comparison_end f T O I (by omega) _ _ ha hb hopb]
      constructor
      · intro h
        rw [if_pos (h I (Nat.le_refl _) (Nat.le_refl _) _ _ ha hb)]
      · intro h
        rw [if_neg]
        intro hless
        apply h
        intro j hj1 hj2 a b ha' hb'
        have hj : j = I := by omega
        subst hj
        rw [ha] at ha'
        rw [hb] at hb'
        cases Option.some.inj ha'
        cases Option.some.inj hb'
        exact hless
  | succ m ih =>
      intro O I hm hOI hIE
      have hIlt : I < E := by omega
      have ha : T[O]? = some (T.get ⟨O, by omega⟩) := List.getElem?_eq_getElem (by omega)
      have hb : T[I]? = some (T.get ⟨I, by omega⟩) := List.getElem?_eq_getElem (by omega)
      have hopb := hop I _ (by omega) hb
      rw [Implement.comparison_inner f T O I E (by omega) (by omega) _ _ ha hb hopb]
      obtain ⟨ih1, ih2⟩ := ih O (I + 1) (by omega) (by omega) (by omega)
      constructor
      · intro h
        rw [if_pos (h I (Nat.le_refl _) (by omega) _ _ ha hb)]
        exact ih1 (fun j hj1 hj2 => h j (by omega) hj2)
      · intro h
        by_cases hless : f.less (T.get ⟨O, by omega⟩).rhs_ (T.get ⟨I, by omega⟩).rhs_ = true
        · rw [if_pos hless]
          apply ih2
          intro hrest
          apply h
          intro j hj1 hj2 a b ha' hb'
          by_cases hj : j = I
          · subst hj
            rw [ha] at ha'
            rw [hb] at hb'
            cases Option.some.inj ha'
            cases Option.some.inj hb'
            exact hless
          · exact hrest j (by omega) hj2 a b ha' hb'
        · rw [if_neg hless]

theorem Implement.comparison_spec (f : Comparators α) (T : List (Reserve α)) (E : Nat)
    (hE : E < T.length)
    (hop : ∀ k r, 0 < k → T[k]? = some r → r.oper_type = Operation.LowerThan) :
    ∀ d O, E - O = d → O ≤ E →
      ∃ b, Implement.comparison f T O (O + 1) E = some b ∧
        (b = true ↔ ∀ i j, O ≤ i → i < j → j ≤ E → ∀ x y, T[i]? = some x → T[j]? = some y →
          f.less x.rhs_ y.rhs_ = true) := by
  intro d
  induction d with
  | zero =>
      intro O hd hOE
      have hO : O = E := by omega
      subst hO
      refine ⟨true, ?_, ?_⟩
      · rw [Implement.comparison]
        rw [if_pos rfl, if_neg (by omega)]
      · simp only [true_iff]
        intro i j h1 h2 h3
        omega
  | succ d ih =>
      intro O hd hOE
      obtain ⟨r1, r2⟩ := Implement.comparison_row f T E hE hop (E - (O + 1)) O (O + 1) rfl
        (by omega) (by omega)
      obtain ⟨b, hb, hiff⟩ := ih (O + 1) (by omega) (by omega)
      by_cases hrow : ∀ j, O + 1 ≤ j → j ≤ E → ∀ a b, T[O]? = some a → T[j]? = some b →
          f.less a.rhs_ b.rhs_ = true
      · refine ⟨b, by rw [r1 hrow]; exact hb, ?_⟩
        rw [hiff]
        constructor
        · intro h i j hi hij hj x y hx hy
          by_cases hiO : i = O
          · subst hiO
            exact hrow j (by omega) hj x y hx hy
          · exact h i j (by omega) hij hj x y hx hy
        · intro h i j hi hij hj x y hx hy
          exact h i j (by omega) hij hj x y hx hy
      · refine ⟨false, r2 hrow, ?_⟩
        simp only [Bool.false_eq_true, false_iff]
        intro h
        exact hrow (fun j hj1 hj2 a b ha hb' => h O j (Nat.le_refl _) (by omega) hj2 a b ha hb')

theorem Spec.strict_conductor_foldl (vs : List α) :
    ∀ c : Conductor α,
      (vs.foldl Conductor.operator_lt c).previous_ =
        c.previous_ ++ vs.map fun v => { rhs_ := v, oper_type := Operation.LowerThan } := by
  induction vs with
  | nil =>
      intro c
      simp
  | cons v rest ih =>
      intro c
      rw [List.foldl_cons, ih]
      simp [Conductor.operator_lt]

theorem Spec.strict_conductor_previous (v0 : α) (vs : List α) :
    (Spec.strict_conductor v0 vs).previous_ =
      { rhs_ := v0, oper_type := Operation.ChainBegin } ::
        vs.map fun v => { rhs_ := v, oper_type := Operation.LowerThan } := by
  unfold Spec.strict_conductor
  rw [Spec.strict_conductor_foldl]
  rfl

theorem Spec.strict_conductor_operands (v0 : α) (vs : List α) :
    (Spec.strict_conductor v0 vs).previous_.map Reserve.rhs_ = v0 :: vs := by
  rw [Spec.strict_conductor_previous]
  simp [Function.comp_def]

theorem Spec.strict_conductor_tags (v0 : α) (vs : List α) :
    ∀ k r, 0 < k → (Spec.strict_conductor v0 vs).previous_[k]? = some r →
      r.oper_type = Operation.LowerThan := by
  intro k r hk hr
  rw [Spec.strict_conductor_previous] at hr
  cases k with
  | zero => omega
  | succ k =>
      rw [List.getElem?_cons_succ, List.getElem?_map] at hr
      cases hv : vs[k]? with
      | none =>
          rw [hv] at hr
          cases hr
      | some v =>
          rw [hv] at hr
          cases Option.some.inj hr
          rfl

theorem Spec.strict_pairs_iff_pairwise (f : Comparators α) (l : List α) :
    (∀ i j, i < j → j < l.length →
        ∀ x y, l[i]? = some x → l[j]? = some y → f.less x y = true) ↔
      List.Pairwise (fun x y => f.less x y = true) l := by
  rw [List.pairwise_iff_getElem]
  constructor
  · intro h i j hi hj hij
    exact h i j hij hj _ _ (List.getElem?_eq_getElem hi) (List.getElem?_eq_getElem hj)
  · intro h i j hij hj x y hx hy
    have hi : i < l.length := by omega
    rw [List.getElem?_eq_getElem hi] at hx
    rw [List.getElem?_eq_getElem hj] at hy
    cases Option.some.inj hx
    cases Option.some.inj hy
    exact h i j hi hj hij

/-- C21. The earlier prototype agrees with the primary evaluator on strict chains: for the
chain `v0 < v1 < ... < v_{n-1}` built only with `<`, the prototype's boolean conversion
(`chain`, `Conductor::operator bool`, `Implement<0, 1, n-1>::comparison`) returns a boolean,
which is `true` iff `v_i < v_j` for every pair `i < j`, and the primary `Node` evaluator returns
the same boolean for that chain: `evaluate<1>()` always, and the boolean conversion as soon as
the chain has a `<`, that is at least two operands. -/
theorem C21_prototype_agrees_on_strict_chains (f : Comparators α) (v0 : α) (vs : List α) :
    ∃ b, (Spec.strict_conductor v0 vs).operator_bool f = some b ∧
      (Spec.strict_chain v0 vs).evaluate f 1 = some b ∧
      (vs ≠ [] → (Spec.strict_chain v0 vs).operator_bool f = some b) ∧
      (b = true ↔ List.Pairwise (fun x y => f.less x y = true) (v0 :: vs)) ∧
      (Spec.strict_conductor v0 vs).previous_.map Reserve.rhs_ = v0 :: vs ∧
      (∀ k, (Spec.strict_chain v0 vs).get k = (v0 :: vs)[k]?) := by
  have hops := Spec.strict_conductor_operands v0 vs
  have hlen : (Spec.strict_conductor v0 vs).previous_.length = (v0 :: vs).length := by
    rw [← hops, List.length_map]
  have hpos : 0 < (Spec.strict_conductor v0 vs).previous_.length := by
    rw [hlen]
    exact Nat.succ_pos _
  obtain ⟨b, hb, hiff⟩ := Implement.comparison_spec f (Spec.strict_conductor v0 vs).previous_
    ((Spec.strict_conductor v0 vs).previous_.length - 1) (by omega)
    (Spec.strict_conductor_tags v0 vs) _ 0 rfl (Nat.zero_le _)
  have hget : ∀ k : Nat, (v0 :: vs)[k]? =
      Option.map Reserve.rhs_ ((Spec.strict_conductor v0 vs).previous_[k]?) := by
    intro k
    rw [← hops, List.getElem?_map]
  have hQ : b = true ↔ ∀ i j, i < j → j < (v0 :: vs).length →
      ∀ x y, (v0 :: vs)[i]? = some x → (v0 :: vs)[j]? = some y → f.less x y = true := by
    rw [hiff]
    constructor
    · intro h i j hij hj x y hx hy
      rw [hget i] at hx
      rw [hget j] at hy
      obtain ⟨a, ha, hax⟩ := Option.map_eq_some'.mp hx
      obtain ⟨c, hc, hcy⟩ := Option.map_eq_some'.mp hy
      rw [← hax, ← hcy]
      exact h i j (Nat.zero_le _) hij (by omega) a c ha hc
    · intro h i j _ hij hj x y hx hy
      exact h i j hij (by omega) x.rhs_ y.rhs_ (by rw [hget i, hx]; rfl)
        (by rw [hget j, hy]; rfl)
  obtain ⟨b', hb', _⟩ := (Spec.strict_chain v0 vs).evaluate_one_spec f
  have hprim := Spec.strict_chain_true_iff f v0 vs
  rw [hb', Option.some.injEq] at hprim
  have hbb : b' = b := by
    rw [Bool.eq_iff_iff, hprim, hQ]
  have hfacts := Spec.strict_chain_facts v0 vs
  refine ⟨b, hb, by rw [hb', hbb], ?_, ?_, hops, hfacts.2.1⟩
  · intro hvs
    have hsz : 1 < (Spec.strict_chain v0 vs).size := by
      rw [hfacts.1]
      cases vs with
      | nil => exact absurd rfl hvs
      | cons v rest => simp
    rw [Node.operator_bool_of_lt f _ hsz, hb', hbb]
  · rw [hQ, Spec.strict_pairs_iff_pairwise]

end cmp
